import Mathlib

/-!
# Verification of the lyrics cleanup pipeline (`src/lib/clean-lyrics.ts`)

A shallow embedding of the deterministic lyrics-cleanup core: the four-stage
pipeline `cleanLyrics` (section-marker removal, chord-notation removal,
section deduplication, whitespace normalization) together with its helpers
(`isChordLine`, `deduplicateSections`, `normalizeWhitespace`,
`normalizeForComparison`, `calculateSimilarity`).

Strings are modelled as `List Char`.  JavaScript string operations
(`trim`, `split('\n')`, `split(/\s+/)`, `split(/\n\s*\n/)`, regex `test`,
`match` and `replace` for the fixed regexes of the source file, `Map` with
insertion order) are given executable definitions whose semantics follow the
ECMAScript behaviour of the concrete patterns used by the source.  Floating
point threshold comparisons (`> 0.8`, `> 0.5`, `> 0.4`, `>= n * 0.6`) are
modelled with exact rational arithmetic; for the integer operand ranges
produced by this code the rational comparison agrees with the IEEE-754
comparison performed by JavaScript (the operands are ratios of small
integers, which never fall inside the rounding slack of the decimal
literals involved).
-/

set_option maxRecDepth 20000

namespace CleanLyrics

/-- JavaScript whitespace (`\s`, `trim`), restricted to the ASCII range that
the repository's inputs use. -/
def isWS (c : Char) : Bool :=
  c = ' ' ∨ c = '\t' ∨ c = '\n' ∨ c = '\r' ∨ c = '\x0b' ∨ c = '\x0c'

/-- JavaScript `\w`: ASCII letters, digits and underscore. -/
def isWordChar (c : Char) : Bool :=
  ('a' ≤ c ∧ c ≤ 'z') ∨ ('A' ≤ c ∧ c ≤ 'Z') ∨ ('0' ≤ c ∧ c ≤ '9') ∨ c = '_'

/-- ASCII digit (`\d`). -/
def isDigit (c : Char) : Bool := '0' ≤ c ∧ c ≤ '9'

/-- The `A`–`Z` to `a`–`z` table of ASCII lowercasing. -/
def lowerPairs : List (Char × Char) :=
  [('A', 'a'), ('B', 'b'), ('C', 'c'), ('D', 'd'), ('E', 'e'), ('F', 'f'),
   ('G', 'g'), ('H', 'h'), ('I', 'i'), ('J', 'j'), ('K', 'k'), ('L', 'l'),
   ('M', 'm'), ('N', 'n'), ('O', 'o'), ('P', 'p'), ('Q', 'q'), ('R', 'r'),
   ('S', 's'), ('T', 't'), ('U', 'u'), ('V', 'v'), ('W', 'w'), ('X', 'x'),
   ('Y', 'y'), ('Z', 'z')]

/-- ASCII lowercasing, the fragment of `String.prototype.toLowerCase` that
matters for this code, tabulated over `A`–`Z`. -/
def jsLower (c : Char) : Char :=
  match lowerPairs.find? (fun p => p.1 == c) with
  | some p => p.2
  | none => c

theorem length_dropWhile_le (p : Char → Bool) (l : List Char) :
    (l.dropWhile p).length ≤ l.length := by
  induction l with
  | nil => simp [List.dropWhile]
  | cons c cs ih =>
    simp only [List.dropWhile]
    cases p c
    · simp
    · simp; omega

/-- Strip leading JavaScript whitespace (`trimStart`). -/
def trimStart (s : List Char) : List Char := s.dropWhile isWS

/-- Strip trailing JavaScript whitespace (`trimEnd`), defined via reversal so
that symmetry arguments are definitional. -/
def trimEnd (s : List Char) : List Char := (trimStart s.reverse).reverse

/-- JavaScript `String.prototype.trim`. -/
def jsTrim (s : List Char) : List Char := trimEnd (trimStart s)

/-- `split('\n')`: always returns at least one (possibly empty) piece. -/
def splitNl : List Char → List (List Char)
  | [] => [[]]
  | c :: cs =>
    if c = '\n' then [] :: splitNl cs
    else
      match splitNl cs with
      | [] => [[c]]
      | h :: t => (c :: h) :: t

/-- `join('\n')`. -/
def joinNl (ls : List (List Char)) : List Char := List.intercalate ['\n'] ls

/-- `join('\n\n')`, used by the deduplicator. -/
def joinBlank (ls : List (List Char)) : List Char :=
  List.intercalate ['\n', '\n'] ls

/-- `split(/\s+/)` with JavaScript semantics: an empty string gives `[""]`,
a maximal whitespace run is one separator, and leading/trailing separator
runs contribute empty pieces.  The recursion is structural (a run's piece
boundary is emitted at its last whitespace character). -/
def splitWS : List Char → List (List Char)
  | [] => [[]]
  | [c] => if isWS c then [[], []] else [[c]]
  | c :: d :: cs =>
    if isWS c then
      if isWS d then splitWS (d :: cs)
      else [] :: splitWS (d :: cs)
    else
      match splitWS (d :: cs) with
      | [] => [[c]]
      | h :: t => (c :: h) :: t

/-- `replace(/\s+/g, ' ')`: collapse every whitespace run to one space
(structurally: the space is emitted at the run's last character). -/
def collapseWS : List Char → List Char
  | [] => []
  | [c] => if isWS c then [' '] else [c]
  | c :: d :: cs =>
    if isWS c then
      if isWS d then collapseWS (d :: cs)
      else ' ' :: collapseWS (d :: cs)
    else c :: collapseWS (d :: cs)

/-! ## Stage 1: `removeSectionMarkers` -/

/-- The bilingual section-keyword list of `removeSectionMarkers`. -/
def sectionKeywords : List (List Char) :=
  ["intro".toList, "verse".toList, "chorus".toList, "reff".toList,
   "refrain".toList, "bridge".toList, "hook".toList,
   "pre-chorus".toList, "prechorus".toList, "post-chorus".toList,
   "postchorus".toList, "interlude".toList, "outro".toList, "solo".toList,
   "breakdown".toList, "drop".toList, "build".toList,
   "instrumental".toList, "break".toList, "coda".toList, "ending".toList,
   "spoken".toList, "bait".toList, "ulang".toList, "pengulangan".toList,
   "repeat".toList]

/-- Character class `[\w\s\-':,]` of the bracketed-marker pattern. -/
def isBrackChar (c : Char) : Bool :=
  isWordChar c ∨ isWS c ∨ c = '-' ∨ c = '\'' ∨ c = ':' ∨ c = ','

/-- `test` of `/^\s*\[[\w\s\-':,]+\d*[x]?\]\s*$/i` on a (trimmed) line.
Because `\d ⊆ \w` and `x ∈ \w`, the trailing `\d*[x]?` is absorbed by the
`[\w\s\-':,]+`, and since the class contains neither bracket the regex
accepts exactly the strings `[C+]` with `C+` a nonempty run of class
characters. -/
def bracketedTest (t : List Char) : Bool :=
  match t with
  | c :: rest =>
    if c = '[' then
      match rest.reverse with
      | c2 :: mid =>
        if c2 = ']' then ¬mid.isEmpty ∧ mid.all isBrackChar else false
      | [] => false
    else false
  | [] => false

/-- Case-insensitive literal-prefix match; returns the remainder. -/
def stripCI : List Char → List Char → Option (List Char)
  | [], rest => some rest
  | _ :: _, [] => none
  | k :: ks, c :: cs => if jsLower c = jsLower k then stripCI ks cs else none

/-- Separator class `[:;\-–—]` of the keyword pattern. -/
def isSepChar (c : Char) : Bool :=
  c = ':' ∨ c = ';' ∨ c = '-' ∨ c = '–' ∨ c = '—'

/-- Matcher for the tail `\s*([\d]+)?\s*[:;\-–—]?\s*([\d]+)?\s*[x]?\s*$` of
the keyword pattern (flag `i`, so `x` also matches `X`).  Each component is
optional and the character classes at every decision point are disjoint from
the respective continuations, so the single greedy pass below is equivalent
to the backtracking regex. -/
def keywordTail (r : List Char) : Bool :=
  let r1 := r.dropWhile isWS
  let r2 := r1.dropWhile isDigit
  let r3 := r2.dropWhile isWS
  let r4 := match r3 with
            | c :: cs => if isSepChar c then cs else r3
            | [] => r3
  let r5 := r4.dropWhile isWS
  let r6 := r5.dropWhile isDigit
  let r7 := r6.dropWhile isWS
  let r8 := match r7 with
            | c :: cs => if c = 'x' ∨ c = 'X' then cs else r7
            | [] => r7
  (r8.dropWhile isWS).isEmpty

/-- `test` of `^\s*KW\s*([\d]+)?\s*[:;\-–—]?\s*([\d]+)?\s*[x]?\s*$` (flag
`i`) on a trimmed line, for one keyword. -/
def keywordTest (kw t : List Char) : Bool :=
  match stripCI kw (t.dropWhile isWS) with
  | some rest => keywordTail rest
  | none => false

/-- The `filter` predicate of `removeSectionMarkers`: `true` keeps a line. -/
def markerKeep (line : List Char) : Bool :=
  let t := jsTrim line
  if t.isEmpty then true
  else if bracketedTest t then false
  else if sectionKeywords.any (fun kw => keywordTest kw t) then false
  else true

/-- Stage 1: Remove section markers like `[Verse]`, `Chorus:`, etc. -/
def removeSectionMarkers (lyrics : List Char) : List Char :=
  joinNl ((splitNl lyrics).filter markerKeep)

/-! ## Stage 2: `removeChordNotations`

The chord pattern is
`/\b[A-G](#|b)?(m|maj|min|aug|dim|sus)?\d*(add\d+)?([\/][A-G](#|b)?)?\b/g`.
It is modelled by an explicit backtracking matcher: each component
contributes its candidate consumption lengths in the regex's priority order
(alternatives left to right, optional groups and `\d*`/`\d+` greedy first),
and the nested `findSome?` explores them with the innermost (rightmost)
choice point backtracking first, exactly as a backtracking engine does.
`\b` is the usual word-boundary over `\w`. -/

/-- Root note class `[A-G]`. -/
def isAG (c : Char) : Bool := 'A' ≤ c ∧ c ≤ 'G'

/-- Candidate lengths for `(#|b)?`, in priority order. -/
def accCands : List Char → List Nat
  | '#' :: _ => [1, 0]
  | 'b' :: _ => [1, 0]
  | _ => [0]

/-- `true` when `kw` is a literal prefix of `l`. -/
def hasPrefixL : List Char → List Char → Bool
  | [], _ => true
  | _ :: _, [] => false
  | k :: ks, c :: cs => k = c ∧ hasPrefixL ks cs

/-- Candidate lengths for `(m|maj|min|aug|dim|sus)?`, in priority order:
the alternation tries `m` before the three-letter qualities. -/
def qualCands (l : List Char) : List Nat :=
  (if hasPrefixL ['m'] l then [1] else []) ++
  (if hasPrefixL ['m', 'a', 'j'] l then [3] else []) ++
  (if hasPrefixL ['m', 'i', 'n'] l then [3] else []) ++
  (if hasPrefixL ['a', 'u', 'g'] l then [3] else []) ++
  (if hasPrefixL ['d', 'i', 'm'] l then [3] else []) ++
  (if hasPrefixL ['s', 'u', 's'] l then [3] else []) ++ [0]

/-- Candidate lengths for the greedy `\d*`: longest first. -/
def digitCands (l : List Char) : List Nat :=
  (List.range ((l.takeWhile isDigit).length + 1)).reverse

/-- Candidate lengths for `(add\d+)?`: the group (with its greedy `\d+`,
longest first, at least one digit) before skipping the group. -/
def addCands (l : List Char) : List Nat :=
  if hasPrefixL ['a', 'd', 'd'] l then
    let d := ((l.drop 3).takeWhile isDigit).length
    ((List.range d).reverse.map (fun k => 3 + (k + 1))) ++ [0]
  else [0]

/-- Candidate lengths for `([\/][A-G](#|b)?)?`, in priority order. -/
def slashCands : List Char → List Nat
  | '/' :: c :: r =>
    if isAG c then
      (match r with
       | '#' :: _ => [3]
       | 'b' :: _ => [3]
       | _ => []) ++ [2, 0]
    else [0]
  | _ => [0]

/-- Word-boundary test between a last consumed character and the following
character (`none` = end of input). -/
def boundary (lastC : Char) (next : Option Char) : Bool :=
  isWordChar lastC ≠ (match next with | some c => isWordChar c | none => false)

/-- Try to match the chord pattern whose root `[A-G]` character is `root`
and whose remaining input is `l`; the initial `\b` has already been checked
by the caller.  Returns the total match length (including the root). -/
def chordMatchAt (root : Char) (l : List Char) : Option Nat :=
  (accCands l).findSome? fun a =>
    let l1 := l.drop a
    (qualCands l1).findSome? fun q =>
      let l2 := l1.drop q
      (digitCands l2).findSome? fun d =>
        let l3 := l2.drop d
        (addCands l3).findSome? fun ad =>
          let l4 := l3.drop ad
          (slashCands l4).findSome? fun sl =>
            let k := a + q + d + ad + sl
            let lastC := if k = 0 then root else l.getD (k - 1) root
            if boundary lastC (l.get? k) then some (k + 1) else none

/-- Left-to-right global scan of the chord pattern, returning the list of
matches and the input with the matches removed (so it models both
`line.match(chordPattern)` and `line.replace(chordPattern, '')`).  The
`Bool` argument says whether the previous character is a word character
(for `\b`); matching resumes immediately after each match.  The first
argument is recursion fuel: every step consumes at least one input
character, so fuel `≥` input length never runs out (the callers below pass
the input length). -/
def chordScanF : Nat → Bool → List Char → List (List Char) × List Char
  | 0, _, rest => ([], rest)
  | _ + 1, _, [] => ([], [])
  | fuel + 1, prevW, c :: cs =>
    if ¬prevW ∧ isAG c then
      match chordMatchAt c cs with
      | some n =>
        let matched := c :: cs.take (n - 1)
        let res := chordScanF fuel (isWordChar (matched.getLastD c))
          (cs.drop (n - 1))
        (matched :: res.1, res.2)
      | none =>
        let res := chordScanF fuel (isWordChar c) cs
        (res.1, c :: res.2)
    else
      let res := chordScanF fuel (isWordChar c) cs
      (res.1, c :: res.2)

/-- `line.match(chordPattern)`, as the list of matched substrings. -/
def chordMatches (line : List Char) : List (List Char) :=
  (chordScanF line.length false line).1

/-- `line.replace(chordPattern, '')`. -/
def chordStrip (line : List Char) : List Char :=
  (chordScanF line.length false line).2

/-- The `commonWords` set of `removeChordNotations`. -/
def commonWords : List (List Char) :=
  ["the".toList, "and".toList, "i".toList, "you".toList, "my".toList,
   "is".toList, "are".toList, "was".toList, "were".toList, "be".toList,
   "been".toList, "have".toList, "has".toList, "had".toList, "do".toList,
   "does".toList, "did".toList, "will".toList, "would".toList,
   "can".toList, "could".toList, "me".toList, "we".toList, "he".toList,
   "she".toList, "it".toList, "they".toList, "a".toList, "an".toList,
   "to".toList, "in".toList, "on".toList, "at".toList, "for".toList,
   "with".toList, "from".toList, "but".toList, "or".toList, "not".toList,
   "all".toList, "when".toList, "so".toList, "up".toList, "out".toList]

/-- Punctuation stripped from words before the common-word lookup
(`/[.,!?;:'"()]/g`). -/
def isPuncChar (c : Char) : Bool :=
  c = '.' ∨ c = ',' ∨ c = '!' ∨ c = '?' ∨ c = ';' ∨ c = ':' ∨
  c = '\'' ∨ c = '"' ∨ c = '(' ∨ c = ')'

/-- Heuristic 3 of `isChordLine`: the line, lowercased and split on
whitespace, contains a token whose punctuation-stripped form is a common
lyric word. -/
def hasCommonWord (line : List Char) : Bool :=
  (splitWS (line.map jsLower)).any fun w =>
    commonWords.contains (w.filter (fun c => ¬isPuncChar c))

/-- Symbol class `[\s\-|/\\,()]` of heuristic 1's residue test. -/
def isPuncSym (c : Char) : Bool :=
  isWS c ∨ c = '-' ∨ c = '|' ∨ c = '/' ∨ c = '\\' ∨ c = ',' ∨
  c = '(' ∨ c = ')'

/-- `/^[A-G]/.test(token)`. -/
def headAG : List Char → Bool
  | c :: _ => isAG c
  | [] => false

/-- Heuristic 4's token shape test: at most 6 characters, starts with
`[A-G]`, and contains a character from `[A-G#b/]`. -/
def chordLikeToken (tok : List Char) : Bool :=
  tok.length ≤ 6 ∧ headAG tok ∧
  tok.any (fun c => isAG c ∨ c = '#' ∨ c = 'b' ∨ c = '/')

/-- `true` when the previous character allows `(^|\s)` to match. -/
def prevOk : Option Char → Bool
  | none => true
  | some p => isWS p

/-- `true` when the list starts with `#` or `b`. -/
def headAccidental : List Char → Bool
  | c2 :: _ => c2 = '#' ∨ c2 = 'b'
  | [] => false

/-- Heuristic 5's trigger `/(^|\s)[A-G](#|b)/.test(line)`. -/
def sharpFlat : Option Char → List Char → Bool
  | prev, c :: rest =>
    (prevOk prev ∧ isAG c ∧ headAccidental rest) ∨ sharpFlat (some c) rest
  | _, [] => false

/-- The alternation of `/\b(maj7|min7|sus2|sus4|dim7|aug|add9|m7|M7)\b/`
(no `i` flag, hence both `m7` and `M7`). -/
def suffixKWs : List (List Char) :=
  ["maj7".toList, "min7".toList, "sus2".toList, "sus4".toList,
   "dim7".toList, "aug".toList, "add9".toList, "m7".toList, "M7".toList]

/-- `true` when the character at index `n` (if any) is a word character. -/
def wordAt (l : List Char) (n : Nat) : Bool :=
  match l.get? n with
  | some c => isWordChar c
  | none => false

/-- Heuristic 6's trigger: some chord-suffix keyword occurs delimited by
word boundaries (every keyword starts and ends with a word character). -/
def suffixScan : Bool → List Char → Bool
  | prevW, c :: cs =>
    (¬prevW ∧ suffixKWs.any fun kw =>
      hasPrefixL kw (c :: cs) ∧ ¬wordAt (c :: cs) kw.length) ∨
    suffixScan (isWordChar c) cs
  | _, [] => false

/-- `line.replace(/\s/g, '').length`. -/
def nonSpaceLen (line : List Char) : Nat :=
  (line.filter fun c => ¬isWS c).length

/-- Heuristic 1 of `isChordLine`: removing all chord matches leaves nothing,
or only whitespace/punctuation/bar symbols. -/
def h1Exhaust (line : List Char) : Bool :=
  (jsTrim (chordStrip line)).isEmpty ∨ (jsTrim (chordStrip line)).all isPuncSym

/-- Heuristic 2 of `isChordLine`: 2+ chord matches whose joined length
exceeds 50% of the non-whitespace characters.  The float comparison
`totalChordLength / nonSpaceLength > 0.5` (guarded by
`nonSpaceLength > 0`) is rendered by exact cross-multiplication. -/
def h2Density (line : List Char) : Bool :=
  2 ≤ (chordMatches line).length ∧ 0 < nonSpaceLen line ∧
  nonSpaceLen line < 2 * ((chordMatches line).map List.length).sum

/-- Heuristic 4 of `isChordLine`: a short line most of whose tokens look
chord-shaped (`chordLikeTokens >= tokens.length * 0.6`, rendered by exact
cross-multiplication; for the token counts this code produces the
comparison agrees with the IEEE-754 one). -/
def h4Structural (line : List Char) : Bool :=
  line.length < 40 ∧ 2 ≤ (splitWS (jsTrim line)).length ∧
  3 * (splitWS (jsTrim line)).length ≤
    5 * ((splitWS (jsTrim line)).filter chordLikeToken).length

/-- Heuristic 5 of `isChordLine`: a root-plus-accidental token on a short
line whose uppercase ratio exceeds 40% (`uppercaseRatio > 0.4`, rendered by
exact cross-multiplication; a line without non-whitespace characters gives
`NaN > 0.4 = false` in JavaScript and `0 < 0 = false` here). -/
def h5SharpFlat (line : List Char) : Bool :=
  sharpFlat none line ∧ 1 ≤ (chordMatches line).length ∧ line.length < 50 ∧
  2 * nonSpaceLen line < 5 * (line.filter fun c => 'A' ≤ c ∧ c ≤ 'Z').length

/-- Heuristic 6 of `isChordLine`: an isolated chord-quality suffix on a
short line. -/
def h6Suffix (line : List Char) : Bool :=
  suffixScan false line ∧ line.length < 50

/-- Helper: Detect if a line is a chord line using multiple heuristics, in
the source's evaluation order.  The argument is the trimmed line, as in the
source. -/
def isChordLine (line : List Char) : Bool :=
  if h1Exhaust line then true
  else if h2Density line then true
  else if hasCommonWord line then false
  else if h4Structural line then true
  else if h5SharpFlat line then true
  else if h6Suffix line then true
  else false

/-- The `filter` predicate of `removeChordNotations`: `true` keeps a line. -/
def chordKeep (line : List Char) : Bool :=
  let t := jsTrim line
  if t.isEmpty then true
  else ¬isChordLine t

/-- Stage 2: Remove guitar chord notations. -/
def removeChordNotations (lyrics : List Char) : List Char :=
  joinNl ((splitNl lyrics).filter chordKeep)

/-! ## Stage 3: `deduplicateSections` -/

/-- Helper: Normalize text for comparison (lowercase, collapse whitespace,
trim). -/
def normalizeForComparison (text : List Char) : List Char :=
  jsTrim (collapseWS (text.map jsLower))

/-- The intersection and union sizes of the two whitespace-split word sets
(JavaScript `Set` sizes; `List.dedup` keeps one copy per distinct word). -/
def jaccardCounts (str1 str2 : List Char) : Nat × Nat :=
  let words1 := (splitWS str1).dedup
  let words2 := (splitWS str2).dedup
  ((words1.filter (fun w => words2.contains w)).length,
   (words1 ++ words2).dedup.length)

/-- Helper: Jaccard similarity over whitespace-split word sets
(`intersection.size / union.size`, `0` for an empty union). -/
def calculateSimilarity (str1 str2 : List Char) : ℚ :=
  if (jaccardCounts str1 str2).2 = 0 then 0
  else ((jaccardCounts str1 str2).1 : ℚ) / ((jaccardCounts str1 str2).2 : ℚ)

/-- The comparison `calculateSimilarity(...) > 0.8` of the deduplicator, by
exact cross-multiplication (see `simAbove45_iff`). -/
def simAbove45 (str1 str2 : List Char) : Bool :=
  4 * (jaccardCounts str1 str2).2 < 5 * (jaccardCounts str1 str2).1

/-- The suffix of `u` strictly after its last `'\n'` (all of `u` when it
has none). -/
def afterLastNl (u : List Char) : List Char :=
  (u.reverse.takeWhile (fun c => ¬(c = '\n'))).reverse

/-- `split(/\n\s*\n/)`: the JavaScript regex split used for paragraphs.  A
match starts at a `'\n'` whose following whitespace run contains another
`'\n'` and, being greedy, extends to the last `'\n'` of that run; scanning
resumes after the match.  The first argument is recursion fuel: every step
consumes at least one input character, so fuel `≥` input length never runs
out. -/
def blankSplitF : Nat → List Char → List (List Char)
  | 0, s => [s]
  | _ + 1, [] => [[]]
  | fuel + 1, c :: cs =>
    if c = '\n' ∧ (cs.takeWhile isWS).contains '\n' then
      [] :: blankSplitF fuel
        (afterLastNl (cs.takeWhile isWS) ++ cs.dropWhile isWS)
    else
      match blankSplitF fuel cs with
      | [] => [[c]]
      | h :: t => (c :: h) :: t

/-- `lyrics.split(/\n\s*\n/)`. -/
def blankSplit (s : List Char) : List (List Char) := blankSplitF s.length s

/-- The state of the deduplication loop: the insertion-ordered `seen` map
(normalized key, kept paragraph) and the kept-paragraph array.  The `rep`
field is proof instrumentation only: it records whether an in-place
replacement has happened; no branch reads it, so it does not influence
`seen`/`kept`. -/
structure DState where
  seen : List (List Char × List Char)
  kept : List (List Char)
  rep : Bool
deriving Repr, DecidableEq

/-- One iteration of the `for (const para of paragraphs)` loop of
`deduplicateSections`. -/
def dedupStep (st : DState) (para : List Char) : DState :=
  let trimmed := jsTrim para
  if trimmed.isEmpty then st
  else
    let normalized := normalizeForComparison trimmed
    -- exact-match check (`seen.has`)
    if st.seen.any (fun kv => kv.1 == normalized) then st
    else
      -- near-duplicate scan over `seen` in insertion order, `break` at the
      -- first entry with similarity > 0.8
      match st.seen.find? (fun kv => simAbove45 normalized kv.1) with
      | some kv =>
        if kv.2.length < trimmed.length then
          -- keep the longer version: replace in place (`indexOf` guard as
          -- in the source), delete the old key, append the new one
          let idx := st.kept.indexOf kv.2
          if idx < st.kept.length then
            { seen := (st.seen.filter (fun e => !(e.1 == kv.1))) ++
                [(normalized, trimmed)],
              kept := st.kept.set idx trimmed,
              rep := true }
          else st
        else st
      | none =>
        { seen := st.seen ++ [(normalized, trimmed)],
          kept := st.kept ++ [trimmed],
          rep := st.rep }

/-- Stage 3: Deduplicate repeated sections. -/
def deduplicateSections (lyrics : List Char) : List Char :=
  joinBlank (((blankSplit lyrics).foldl dedupStep ⟨[], [], false⟩).kept)

/-- `true` when the first deduplication pass on `lyrics` performs no
in-place replacement. -/
def dedupNoReplace (lyrics : List Char) : Bool :=
  !((blankSplit lyrics).foldl dedupStep ⟨[], [], false⟩).rep

/-! ## Stage 4: `normalizeWhitespace` -/

/-- `replace(/\n\s*\n\s*\n+/g, '\n\n')`.  A match starts at a `'\n'` whose
maximal following whitespace run contains at least two more `'\n'`; the
greedy match extends to the last `'\n'` of the run and is replaced by two
newlines, scanning resuming after it.  The first argument is recursion
fuel, never exhausted for fuel `≥` input length. -/
def collapseBlankF : Nat → List Char → List Char
  | 0, s => s
  | _ + 1, [] => []
  | fuel + 1, c :: cs =>
    if c = '\n' ∧ 2 ≤ (cs.takeWhile isWS).count '\n' then
      '\n' :: '\n' ::
        collapseBlankF fuel
          (afterLastNl (cs.takeWhile isWS) ++ cs.dropWhile isWS)
    else c :: collapseBlankF fuel cs

/-- `lyrics.replace(/\n\s*\n\s*\n+/g, '\n\n')`. -/
def collapseBlank (s : List Char) : List Char := collapseBlankF s.length s

/-- Stage 4: Normalize whitespace: collapse blank-line runs, trim every
line, trim the result. -/
def normalizeWhitespace (lyrics : List Char) : List Char :=
  jsTrim (joinNl ((splitNl (collapseBlank lyrics)).map jsTrim))

/-! ## The pipeline -/

/-- Main function to clean raw lyrics: the 4-stage pipeline.  The guard
`!rawLyrics || rawLyrics.trim().length === 0` collapses to the trim test
(the empty string trims to the empty string). -/
def cleanLyrics (rawLyrics : List Char) : List Char :=
  if (jsTrim rawLyrics).isEmpty then []
  else
    normalizeWhitespace
      (deduplicateSections
        (removeChordNotations
          (removeSectionMarkers rawLyrics)))

/-! ## Shared basic lemmas -/

theorem jsTrim_of_all_ws {l : List Char} (h : ∀ c ∈ l, isWS c = true) :
    jsTrim l = [] := by
  unfold jsTrim trimEnd
  rw [show trimStart l = [] from List.dropWhile_eq_nil_iff.mpr h]
  rfl

theorem jsTrim_nil : jsTrim [] = [] := rfl

/-! ## Claim C5 -/

/-- Claim C5: `cleanLyrics` is total (it is a Lean function on all of
`List Char`) and every input consisting only of whitespace characters —
in particular the empty string — is short-circuited to the empty string. -/
theorem cleanLyrics_ws_empty (s : List Char) (h : ∀ c ∈ s, isWS c = true) :
    cleanLyrics s = [] := by
  unfold cleanLyrics
  rw [jsTrim_of_all_ws h]
  simp

/-- Witness for C5 at the whitespace-only input `"  \n\n  "` (and the empty
string, which `cleanLyrics_ws_empty` also covers via `h` vacuously). -/
theorem cleanLyrics_ws_empty_witness :
    (∀ c ∈ "  \n\n  ".toList, isWS c = true) ∧
      cleanLyrics "  \n\n  ".toList = [] :=
  ⟨by decide, cleanLyrics_ws_empty "  \n\n  ".toList (by decide)⟩

/-! ## Claim C2 -/

/-- Claim C2 counterexample: the line `"A"` is non-blank and, lowercased,
consists of the single common word `a`, yet the chord stage removes it:
heuristic 1 (chord-pattern exhaustion) fires before the common-word check,
so the common-word override does not have priority over every removal
heuristic. -/
theorem chord_removes_common_word_line :
    jsTrim "A".toList ≠ [] ∧ hasCommonWord (jsTrim "A".toList) = true ∧
      removeChordNotations "A".toList = [] := by
  refine ⟨by decide, by decide, by decide⟩

/-- Claim C2 (amended): the common-word override has priority over
heuristics 4–6 (structural shape, sharp/flat, chord-suffix) but not over
heuristics 1–2: a line whose trimmed form contains a common word survives
the chord stage whenever chord-pattern exhaustion and chord-density do not
fire on it. -/
theorem common_word_keep_of_h1_h2 (line : List Char)
    (h1 : h1Exhaust (jsTrim line) = false)
    (h2 : h2Density (jsTrim line) = false)
    (h3 : hasCommonWord (jsTrim line) = true) :
    chordKeep line = true := by
  unfold chordKeep
  by_cases he : (jsTrim line).isEmpty
  · simp [he]
  · simp only [he, if_false, Bool.not_eq_true']
    unfold isChordLine
    simp [h1, h2, h3]

/-- Witness for the amended C2 at the line `"Hello you"`. -/
theorem common_word_keep_of_h1_h2_witness :
    h1Exhaust (jsTrim "Hello you".toList) = false ∧
      h2Density (jsTrim "Hello you".toList) = false ∧
      hasCommonWord (jsTrim "Hello you".toList) = true ∧
      chordKeep "Hello you".toList = true :=
  ⟨by decide, by decide, by decide,
    common_word_keep_of_h1_h2 _ (by decide) (by decide) (by decide)⟩

/-! ## Claim C6 -/

/-- Claim C6 counterexample: the line `"[Verse (1)]"` is, after trimming,
entirely enclosed in square brackets, yet the marker stage keeps it: the
bracketed pattern `\[[\w\s\-':,]+\d*[x]?\]` restricts the bracketed content
to a character class that excludes `(` and `)`, so removal is not
"regardless of the bracketed content". -/
theorem bracket_content_not_removed :
    (jsTrim "[Verse (1)]".toList).head? = some '[' ∧
      (jsTrim "[Verse (1)]".toList).getLast? = some ']' ∧
      removeSectionMarkers "[Verse (1)]".toList = "[Verse (1)]".toList := by
  refine ⟨by decide, by decide, by decide⟩

/-- Claim C6 (amended): a line whose trimmed form is `[` followed by a
nonempty run of characters from the class `[\w\s\-':,]` and a closing `]`
is removed by the marker stage, and blank (all-whitespace) lines always
pass through the marker stage. -/
theorem marker_bracket_and_blank :
    (∀ (line c : List Char), jsTrim line = '[' :: (c ++ [']']) → c ≠ [] →
      c.all isBrackChar = true → markerKeep line = false) ∧
    (∀ line : List Char, (∀ ch ∈ line, isWS ch = true) →
      markerKeep line = true) := by
  constructor
  · intro line c hline hne hall
    unfold markerKeep
    rw [hline]
    have hbr : bracketedTest ('[' :: (c ++ [']'])) = true := by
      show (if '[' = '[' then
        (match (c ++ [']']).reverse with
          | c2 :: mid =>
            if c2 = ']' then
              decide (¬mid.isEmpty = true ∧ mid.all isBrackChar = true)
            else false
          | [] => false)
        else false) = true
      rw [show (c ++ [']']).reverse = ']' :: c.reverse from by
        simp [List.reverse_concat c ']']]
      simp [List.all_reverse, hall, hne]
    simp [hbr]
  · intro line h
    unfold markerKeep
    rw [jsTrim_of_all_ws h]
    simp

/-- Witness for the amended C6 at `" [Chorus 2x] "` and the blank line
`"  "`. -/
theorem marker_bracket_and_blank_witness :
    markerKeep " [Chorus 2x] ".toList = false ∧
      markerKeep "  ".toList = true :=
  ⟨marker_bracket_and_blank.1 " [Chorus 2x] ".toList "Chorus 2x".toList
      (by decide) (by decide) (by decide),
    marker_bracket_and_blank.2 "  ".toList (by decide)⟩

/-! ## The similarity threshold bridge -/

theorem nodup_subset_length_le {α : Type} [DecidableEq α] {l1 l2 : List α}
    (h1 : l1.Nodup) (h2 : l1 ⊆ l2) : l1.length ≤ l2.length := by
  have e1 : l1.toFinset.card = l1.length := List.toFinset_card_of_nodup h1
  have e2 : l1.toFinset ⊆ l2.toFinset := by
    intro x hx
    rw [List.mem_toFinset] at hx ⊢
    exact h2 hx
  calc l1.length = l1.toFinset.card := e1.symm
    _ ≤ l2.toFinset.card := Finset.card_le_card e2
    _ ≤ l2.length := l2.toFinset_card_le

theorem jaccard_inter_le_union (s1 s2 : List Char) :
    (jaccardCounts s1 s2).1 ≤ (jaccardCounts s1 s2).2 := by
  unfold jaccardCounts
  apply nodup_subset_length_le
  · exact ((splitWS s1).nodup_dedup).filter _
  · intro x hx
    rw [List.mem_dedup]
    exact List.mem_append_left _ (List.mem_of_mem_filter hx)

/-- The integer comparison `simAbove45` coincides with the source's
floating-point comparison `calculateSimilarity(...) > 0.8` (exact on these
ratios of small integers). -/
theorem simAbove45_iff (s1 s2 : List Char) :
    ((4 : ℚ)/5 < calculateSimilarity s1 s2) ↔ simAbove45 s1 s2 = true := by
  have hle := jaccard_inter_le_union s1 s2
  unfold calculateSimilarity simAbove45
  by_cases hu : (jaccardCounts s1 s2).2 = 0
  · have hi : (jaccardCounts s1 s2).1 = 0 := by omega
    rw [if_pos hu]
    simp [hi, hu]
    norm_num
  · rw [if_neg hu]
    have hupos : (0 : ℚ) < ((jaccardCounts s1 s2).2 : ℚ) := by
      exact_mod_cast Nat.pos_of_ne_zero hu
    rw [div_lt_div_iff₀ (by norm_num) hupos]
    simp only [decide_eq_true_eq]
    constructor
    · intro h
      have : (4 * (jaccardCounts s1 s2).2 : ℚ) <
          (5 * (jaccardCounts s1 s2).1 : ℚ) := by linarith
      exact_mod_cast this
    · intro h
      have : (4 * (jaccardCounts s1 s2).2 : ℚ) <
          (5 * (jaccardCounts s1 s2).1 : ℚ) := by exact_mod_cast h
      push_cast at this
      linarith

theorem indexOf_lt_length_of_mem {α : Type} [BEq α] [LawfulBEq α]
    {a : α} {l : List α} (h : a ∈ l) : l.indexOf a < l.length := by
  induction l with
  | nil => cases h
  | cons c cs ih =>
    rw [List.indexOf_cons]
    cases hca : c == a
    · have hmem : a ∈ cs := by
        rcases List.mem_cons.mp h with h1 | h1
        · exfalso; rw [h1] at hca; simp at hca
        · exact h1
      simpa using Nat.succ_lt_succ (ih hmem)
    · simp

/-! ## Claim C3 -/

/-- Claim C3: in the deduplication loop, when the current paragraph has no
exact key match, its first (insertion-order) similarity hit among the kept
entries is `(k, v)` with similarity `> 0.8`, and its trimmed form is
strictly longer than `v`, the kept list is updated in place: `v` is
replaced by the trimmed current paragraph at the index of `v`'s first
occurrence, the list length is unchanged (so the paragraph is never
appended), and without the strict length increase the kept list is
untouched. -/
theorem dedupStep_replace_spec (st : DState) (para k v : List Char)
    (hne : jsTrim para ≠ [])
    (hex : st.seen.any
      (fun kv => kv.1 == normalizeForComparison (jsTrim para)) = false)
    (hfind : st.seen.find?
      (fun kv => simAbove45 (normalizeForComparison (jsTrim para)) kv.1) =
        some (k, v))
    (hmem : v ∈ st.kept) :
    (dedupStep st para).kept.length = st.kept.length ∧
    (v.length < (jsTrim para).length →
      (dedupStep st para).kept =
        st.kept.set (st.kept.indexOf v) (jsTrim para)) ∧
    (¬v.length < (jsTrim para).length → (dedupStep st para).kept = st.kept) := by
  have hidx : st.kept.indexOf v < st.kept.length :=
    indexOf_lt_length_of_mem hmem
  have h0 : (jsTrim para).isEmpty = false := by
    cases hEmp : (jsTrim para).isEmpty
    · rfl
    · exact absurd (List.isEmpty_iff.mp hEmp) hne
  unfold dedupStep
  simp only [h0, Bool.false_eq_true, if_false, hex, hfind]
  by_cases hlen : v.length < (jsTrim para).length
  · rw [if_pos hlen, if_pos hidx]
    refine ⟨by simp, fun _ => rfl, fun hcon => absurd hlen hcon⟩
  · rw [if_neg hlen]
    exact ⟨rfl, fun hcon => absurd hcon hlen, fun _ => rfl⟩

/-- Witness for C3: a concrete replacement.  The kept paragraph
`"a b c d e f g h i"` is 0.9-similar to the longer current paragraph
`"a b c d e f g h i j"`, which overwrites it in place and is not
appended. -/
theorem dedupStep_replace_spec_witness :
    (dedupStep
        ⟨[("a b c d e f g h i".toList, "a b c d e f g h i".toList)],
         ["a b c d e f g h i".toList], false⟩
        "a b c d e f g h i j".toList).kept.length = 1 ∧
    ("a b c d e f g h i".toList.length <
        (jsTrim "a b c d e f g h i j".toList).length →
      (dedupStep
        ⟨[("a b c d e f g h i".toList, "a b c d e f g h i".toList)],
         ["a b c d e f g h i".toList], false⟩
        "a b c d e f g h i j".toList).kept =
        ["a b c d e f g h i".toList].set
          (["a b c d e f g h i".toList].indexOf "a b c d e f g h i".toList)
          (jsTrim "a b c d e f g h i j".toList)) ∧
    (¬"a b c d e f g h i".toList.length <
        (jsTrim "a b c d e f g h i j".toList).length →
      (dedupStep
        ⟨[("a b c d e f g h i".toList, "a b c d e f g h i".toList)],
         ["a b c d e f g h i".toList], false⟩
        "a b c d e f g h i j".toList).kept =
        ["a b c d e f g h i".toList]) :=
  dedupStep_replace_spec _ _ "a b c d e f g h i".toList
    "a b c d e f g h i".toList (by decide) (by decide) (by decide) (by decide)

/-! ## Claim C4 -/

/-- Claim C4 counterexample: the paragraph `P = "the and you my is was were
be been"` occurs verbatim twice (first and third paragraph), yet the output
of `cleanLyrics` does not contain `P` at all — in between, the longer
near-duplicate second paragraph replaced the kept copy of `P`, and the
repeated occurrence was then dropped against the replacement.  So a
verbatim-repeated paragraph does not always appear exactly once in the
output. -/
theorem verbatim_repeat_lost :
    (blankSplit
        ("the and you my is was were be been\n\nthe and you my is was were be been have\n\nthe and you my is was were be been".toList)).count
      "the and you my is was were be been".toList = 2 ∧
    cleanLyrics
        "the and you my is was were be been\n\nthe and you my is was were be been have\n\nthe and you my is was were be been".toList =
      "the and you my is was were be been have".toList := by
  refine ⟨by decide, by decide⟩

/-- Claim C4 (amended): a paragraph whose normalized key exactly matches a
previously kept paragraph's key is skipped: the deduplication state (both
the kept list and the key map) is completely unchanged, so the kept text is
not replaced.  This is the claimed behaviour whenever the earlier verbatim
occurrence is still the kept copy; the counterexample shows it can fail to
be (a longer `>0.8`-similar paragraph may have replaced it, removing its
key). -/
theorem dedupStep_exact_skip (st : DState) (para : List Char)
    (hex : st.seen.any
      (fun kv => kv.1 == normalizeForComparison (jsTrim para)) = true) :
    dedupStep st para = st := by
  unfold dedupStep
  by_cases hne : jsTrim para = []
  · simp [hne]
  · simp [List.isEmpty_iff, hne, hex]

/-- Witness for the amended C4: a verbatim repeat of the kept paragraph
`"hello world"` leaves the state untouched. -/
theorem dedupStep_exact_skip_witness :
    dedupStep ⟨[("hello world".toList, "hello world".toList)],
        ["hello world".toList], false⟩ "hello  world ".toList =
      ⟨[("hello world".toList, "hello world".toList)],
        ["hello world".toList], false⟩ :=
  dedupStep_exact_skip _ _ (by decide)

/-! ## Claim C1 (counterexample part) -/

/-- Claim C1 counterexample: `cleanLyrics` is not idempotent.  In the input
below the third paragraph (similarity 0.9 to the first, longer) replaces
the first kept paragraph in place; the replacement is 0.9-similar to the
second kept paragraph, which the first pass has already emitted, so a
second application of `cleanLyrics` merges the two remaining paragraphs. -/
theorem cleanLyrics_not_idempotent :
    cleanLyrics
        (cleanLyrics
          "the and you my is was were be been\n\nthe and you my is was were be have\n\nthe and you my is was were be been have".toList) ≠
      cleanLyrics
        "the and you my is was were be been\n\nthe and you my is was were be have\n\nthe and you my is was were be been have".toList := by
  decide

/-! ## Claim C9 -/

/-- Replace every LF by CRLF, turning a text's line endings from LF to
CRLF convention. -/
def crlfOf : List Char → List Char
  | [] => []
  | c :: cs => if c = '\n' then '\r' :: '\n' :: crlfOf cs else c :: crlfOf cs

/-- Claim C9 counterexample: `cleanLyrics` is not CRLF/LF transparent.  The
CR characters inside a CRLF paragraph count towards the deduplicator's
length comparison, so with the text below the near-duplicate replacement
fires for the LF form (single long line strictly longer than the kept
three-line paragraph) but not for the CRLF form (the two lengths tie). -/
theorem cleanLyrics_crlf_differs :
    cleanLyrics
        (crlfOf
          "the and you\nmy is was\nwere be been\n\nthe and you my is was were be been a".toList) ≠
      cleanLyrics
        "the and you\nmy is was\nwere be been\n\nthe and you my is was were be been a".toList := by
  decide

/-! ## Trim and lowercase toolbox -/

theorem jsLower_isWS (c : Char) : isWS (jsLower c) = isWS c := by
  unfold jsLower
  cases hf : lowerPairs.find? (fun p => p.1 == c) with
  | none => rfl
  | some p =>
    have hp : p ∈ lowerPairs := List.mem_of_find?_eq_some hf
    have hc : p.1 = c := by simpa using List.find?_some hf
    subst hc
    fin_cases hp <;> decide

theorem jsLower_nl (c : Char) : jsLower c = '\n' ↔ c = '\n' := by
  unfold jsLower
  cases hf : lowerPairs.find? (fun p => p.1 == c) with
  | none => exact Iff.rfl
  | some p =>
    have hp : p ∈ lowerPairs := List.mem_of_find?_eq_some hf
    have hc : p.1 = c := by simpa using List.find?_some hf
    subst hc
    fin_cases hp <;>
      exact ⟨fun h => absurd h (by decide), fun h => absurd h (by decide)⟩

theorem trimStart_cons_ws {c : Char} (cs : List Char) (h : isWS c = true) :
    trimStart (c :: cs) = trimStart cs := by
  unfold trimStart
  rw [List.dropWhile_cons_of_pos h]

theorem trimStart_cons_not_ws {c : Char} (cs : List Char)
    (h : isWS c = false) : trimStart (c :: cs) = c :: cs := by
  unfold trimStart
  rw [List.dropWhile_cons_of_neg (by simp [h])]

theorem trimStart_append (l1 l2 : List Char) :
    trimStart (l1 ++ l2) =
      if (trimStart l1).isEmpty then trimStart l2 else trimStart l1 ++ l2 := by
  induction l1 with
  | nil => simp [trimStart, List.dropWhile]
  | cons c cs ih =>
    cases h : isWS c
    · rw [List.cons_append, trimStart_cons_not_ws _ h, trimStart_cons_not_ws _ h]
      simp
    · rw [List.cons_append, trimStart_cons_ws _ h, trimStart_cons_ws _ h, ih]

theorem trimEnd_append_ws {c : Char} (l : List Char) (h : isWS c = true) :
    trimEnd (l ++ [c]) = trimEnd l := by
  unfold trimEnd
  rw [show (l ++ [c]).reverse = c :: l.reverse by simp]
  rw [trimStart_cons_ws _ h]

theorem jsTrim_cons_ws {c : Char} (l : List Char) (h : isWS c = true) :
    jsTrim (c :: l) = jsTrim l := by
  unfold jsTrim
  rw [trimStart_cons_ws _ h]

theorem jsTrim_append_ws {c : Char} (l : List Char) (h : isWS c = true) :
    jsTrim (l ++ [c]) = jsTrim l := by
  unfold jsTrim
  rw [trimStart_append]
  by_cases he : (trimStart l).isEmpty
  · rw [if_pos he]
    rw [List.isEmpty_iff] at he
    rw [he]
    rw [show trimStart [c] = [] by
      rw [trimStart_cons_ws _ h]; rfl]
  · rw [if_neg he, trimEnd_append_ws _ h]

/-! ## Claim C9 (amended part) -/

theorem crlfOf_cons_nl (cs : List Char) :
    crlfOf ('\n' :: cs) = '\r' :: '\n' :: crlfOf cs := rfl

theorem crlfOf_cons {c : Char} (cs : List Char) (h : ¬c = '\n') :
    crlfOf (c :: cs) = c :: crlfOf cs := by
  show (if c = '\n' then '\r' :: '\n' :: crlfOf cs else c :: crlfOf cs) =
    c :: crlfOf cs
  rw [if_neg h]

theorem crlf_map_lower (x : List Char) :
    (crlfOf x).map jsLower = crlfOf (x.map jsLower) := by
  induction x with
  | nil => rfl
  | cons c cs ih =>
    by_cases h : c = '\n'
    · subst h
      rw [crlfOf_cons_nl, List.map_cons, List.map_cons, List.map_cons,
        show jsLower '\r' = '\r' from by decide,
        show jsLower '\n' = '\n' from by decide, crlfOf_cons_nl, ih]
    · have h2 : ¬jsLower c = '\n' := fun hc => h ((jsLower_nl c).mp hc)
      rw [crlfOf_cons cs h, List.map_cons, List.map_cons,
        crlfOf_cons (cs.map jsLower) h2, ih]

/-- Unfolding equation for `collapseWS` on two or more characters. -/
theorem collapseWS_cons2 (c d : Char) (cs : List Char) :
    collapseWS (c :: d :: cs) =
      if isWS c then
        (if isWS d then collapseWS (d :: cs) else ' ' :: collapseWS (d :: cs))
      else c :: collapseWS (d :: cs) := rfl

theorem collapseWS_cons_crlf (c : Char) (x : List Char) :
    collapseWS (c :: crlfOf x) = collapseWS (c :: x) := by
  induction x generalizing c with
  | nil => rfl
  | cons d ds ih =>
    by_cases hd : d = '\n'
    · subst hd
      rw [crlfOf_cons_nl]
      have e1 : collapseWS ('\r' :: '\n' :: crlfOf ds) =
          collapseWS ('\n' :: crlfOf ds) := by
        rw [collapseWS_cons2]
        rw [if_pos (show isWS '\r' = true by decide),
          if_pos (show isWS '\n' = true by decide)]
      rw [collapseWS_cons2 c '\r' ('\n' :: crlfOf ds), e1, ih '\n',
        collapseWS_cons2 c '\n' ds]
      rw [if_pos (show isWS '\r' = true by decide),
        if_pos (show isWS '\n' = true by decide)]
    · rw [crlfOf_cons ds hd]
      rw [collapseWS_cons2 c d (crlfOf ds), collapseWS_cons2 c d ds, ih d]

theorem collapseWS_crlf (x : List Char) :
    collapseWS (crlfOf x) = collapseWS x := by
  cases x with
  | nil => rfl
  | cons c cs =>
    by_cases h : c = '\n'
    · subst h
      rw [crlfOf_cons_nl]
      rw [collapseWS_cons2 '\r' '\n' (crlfOf cs),
        if_pos (show isWS '\r' = true by decide),
        if_pos (show isWS '\n' = true by decide)]
      exact collapseWS_cons_crlf '\n' cs
    · rw [crlfOf_cons cs h]
      exact collapseWS_cons_crlf c cs

/-- Claim C9 (amended): the per-line classifiers of the marker and chord
stages are insensitive to a trailing carriage return (splitting CRLF text
on `'\n'` leaves a trailing `'\r'` on each line, which trimming removes
before classification), and a paragraph's normalized deduplication key is
CRLF-insensitive.  The length comparison of the deduplicator, however,
counts `'\r'` characters, so the full pipeline is not CRLF/LF transparent
(see the counterexample). -/
theorem crlf_insensitive_parts :
    (∀ line : List Char, markerKeep (line ++ ['\r']) = markerKeep line) ∧
    (∀ line : List Char, chordKeep (line ++ ['\r']) = chordKeep line) ∧
    (∀ t : List Char,
      normalizeForComparison (crlfOf t) = normalizeForComparison t) := by
  refine ⟨?_, ?_, ?_⟩
  · intro line
    unfold markerKeep
    rw [jsTrim_append_ws _ (by decide)]
  · intro line
    unfold chordKeep
    rw [jsTrim_append_ws _ (by decide)]
  · intro t
    unfold normalizeForComparison
    rw [crlf_map_lower, collapseWS_crlf]


/-! ## splitNl / joinNl infrastructure -/

theorem splitNl_cons_nl (cs : List Char) :
    splitNl ('\n' :: cs) = [] :: splitNl cs := by
  show (if ('\n' : Char) = '\n' then [] :: splitNl cs else _) = _
  rw [if_pos rfl]

theorem splitNl_ne_nil (s : List Char) : splitNl s ≠ [] := by
  cases s with
  | nil => simp [splitNl]
  | cons c cs =>
    show (if c = '\n' then [] :: splitNl cs else
      match splitNl cs with
      | [] => [[c]]
      | h :: t => (c :: h) :: t) ≠ []
    by_cases h : c = '\n'
    · simp [h]
    · rw [if_neg h]
      cases splitNl cs <;> simp

theorem exists_cons_splitNl (cs : List Char) :
    ∃ h0 t0, splitNl cs = h0 :: t0 := by
  cases hc : splitNl cs with
  | nil => exact absurd hc (splitNl_ne_nil cs)
  | cons a b => exact ⟨a, b, rfl⟩

theorem splitNl_cons_of_ne {c : Char} {cs : List Char} {h0 : List Char}
    {t0 : List (List Char)} (hne : ¬c = '\n')
    (hcs : splitNl cs = h0 :: t0) :
    splitNl (c :: cs) = (c :: h0) :: t0 := by
  show (if c = '\n' then [] :: splitNl cs else
    match splitNl cs with
    | [] => [[c]]
    | h :: t => (c :: h) :: t) = _
  rw [if_neg hne, hcs]

theorem splitNl_append_nl (x y : List Char) :
    splitNl (x ++ '\n' :: y) = splitNl x ++ splitNl y := by
  induction x with
  | nil => rw [List.nil_append, splitNl_cons_nl]; rfl
  | cons c cs ih =>
    by_cases h : c = '\n'
    · subst h
      rw [List.cons_append, splitNl_cons_nl, splitNl_cons_nl, ih]
      rfl
    · obtain ⟨h0, t0, hcs⟩ := exists_cons_splitNl cs
      rw [List.cons_append,
        splitNl_cons_of_ne h (by rw [ih, hcs]; rfl),
        splitNl_cons_of_ne h hcs]
      rfl

theorem splitNl_no_nl (s : List Char) : ∀ l ∈ splitNl s, '\n' ∉ l := by
  induction s with
  | nil => intro l hl; simp [splitNl] at hl; simp [hl]
  | cons c cs ih =>
    intro l hl
    by_cases h : c = '\n'
    · subst h
      rw [splitNl_cons_nl] at hl
      rcases List.mem_cons.mp hl with h1 | h1
      · simp [h1]
      · exact ih l h1
    · obtain ⟨h0, t0, hcs⟩ := exists_cons_splitNl cs
      rw [splitNl_cons_of_ne h hcs] at hl
      rcases List.mem_cons.mp hl with h1 | h1
      · subst h1
        intro hmem
        rcases List.mem_cons.mp hmem with h2 | h2
        · exact h h2.symm
        · exact ih h0 (by rw [hcs]; exact List.mem_cons_self _ _) h2
      · exact ih l (by rw [hcs]; exact List.mem_cons_of_mem _ h1)

theorem splitNl_of_no_nl {l : List Char} (h : '\n' ∉ l) : splitNl l = [l] := by
  induction l with
  | nil => rfl
  | cons c cs ih =>
    have hc : ¬c = '\n' := fun hc => h (by rw [hc]; exact List.mem_cons_self _ _)
    have hcs : '\n' ∉ cs := fun hm => h (List.mem_cons_of_mem _ hm)
    rw [splitNl_cons_of_ne hc (ih hcs)]

theorem splitNl_head_takeWhile (s : List Char) :
    ∃ t, splitNl s = (s.takeWhile (fun c => ¬(c = '\n'))) :: t := by
  induction s with
  | nil => exact ⟨[], rfl⟩
  | cons c cs ih =>
    by_cases h : c = '\n'
    · subst h
      refine ⟨splitNl cs, ?_⟩
      rw [splitNl_cons_nl, List.takeWhile_cons_of_neg (by simp)]
    · obtain ⟨t, ht⟩ := ih
      refine ⟨t, ?_⟩
      rw [splitNl_cons_of_ne h ht, List.takeWhile_cons_of_pos (by simp [h])]

theorem joinNl_single (l : List Char) : joinNl [l] = l := by
  simp [joinNl, List.intercalate]

theorem joinNl_cons (l : List Char) (ls : List (List Char)) (h : ls ≠ []) :
    joinNl (l :: ls) = l ++ '\n' :: joinNl ls := by
  cases ls with
  | nil => exact absurd rfl h
  | cons a b =>
    show (List.intersperse ['\n'] (l :: a :: b)).flatten = _
    rw [List.intersperse_cons₂]
    show l ++ (['\n'] ++ (List.intersperse ['\n'] (a :: b)).flatten) = _
    rfl

theorem joinNl_splitNl (s : List Char) : joinNl (splitNl s) = s := by
  induction s with
  | nil => rfl
  | cons c cs ih =>
    by_cases h : c = '\n'
    · subst h
      rw [splitNl_cons_nl, joinNl_cons _ _ (splitNl_ne_nil cs), ih]
      rfl
    · obtain ⟨h0, t0, hcs⟩ := exists_cons_splitNl cs
      rw [splitNl_cons_of_ne h hcs]
      cases t0 with
      | nil =>
        rw [joinNl_single]
        have h2 := ih
        rw [hcs, joinNl_single] at h2
        rw [h2]
      | cons u v =>
        rw [joinNl_cons _ _ (by simp)]
        have h2 := ih
        rw [hcs, joinNl_cons _ _ (by simp)] at h2
        rw [List.cons_append, h2]

theorem splitNl_joinNl (ls : List (List Char)) (hne : ls ≠ [])
    (h : ∀ l ∈ ls, '\n' ∉ l) : splitNl (joinNl ls) = ls := by
  induction ls with
  | nil => exact absurd rfl hne
  | cons l rest ih =>
    cases rest with
    | nil =>
      rw [joinNl_single]
      exact splitNl_of_no_nl (h l (List.mem_cons_self _ _))
    | cons m r2 =>
      rw [joinNl_cons _ _ (by simp), splitNl_append_nl,
        splitNl_of_no_nl (h l (List.mem_cons_self _ _)),
        ih (by simp) (fun x hx => h x (List.mem_cons_of_mem _ hx))]
      rfl


/-! ## More trim lemmas -/

theorem trimStart_head_not_ws {l : List Char} {c : Char} {r : List Char}
    (h : trimStart l = c :: r) : isWS c = false := by
  have h2 := List.head?_dropWhile_not isWS l
  rw [show l.dropWhile isWS = c :: r from h] at h2
  simpa using h2

theorem trimStart_idem (l : List Char) :
    trimStart (trimStart l) = trimStart l :=
  List.dropWhile_idempotent isWS l

theorem trimEnd_eq_nil_iff {l : List Char} :
    trimEnd l = [] ↔ ∀ c ∈ l, isWS c = true := by
  constructor
  · intro h
    have h2 : trimStart l.reverse = [] := by
      have h3 := congrArg List.reverse h
      simpa [trimEnd] using h3
    intro c hc
    exact List.dropWhile_eq_nil_iff.mp h2 c (by simpa using hc)
  · intro h
    show (trimStart l.reverse).reverse = []
    rw [show trimStart l.reverse = [] from
      List.dropWhile_eq_nil_iff.mpr (fun c hc => h c (by simpa using hc))]
    rfl

theorem trimStart_eq_nil_iff {l : List Char} :
    trimStart l = [] ↔ ∀ c ∈ l, isWS c = true :=
  List.dropWhile_eq_nil_iff

theorem trimEnd_cons (c : Char) (y : List Char) :
    trimEnd (c :: y) =
      if trimEnd y = [] then (if isWS c then [] else [c])
      else c :: trimEnd y := by
  have key : trimEnd (c :: y) = ((y.reverse ++ [c]).dropWhile isWS).reverse := by
    show ((c :: y).reverse.dropWhile isWS).reverse = _
    rw [List.reverse_cons]
  rw [key, List.dropWhile_append]
  by_cases h : trimEnd y = []
  · have h2 : (y.reverse.dropWhile isWS).isEmpty = true := by
      rw [List.isEmpty_iff]
      have h3 := congrArg List.reverse h
      simpa [trimEnd, trimStart] using h3
    rw [if_pos h, h2]
    by_cases hc : isWS c
    · rw [if_pos hc, if_pos rfl]
      show ([c].dropWhile isWS).reverse = []
      rw [List.dropWhile_cons_of_pos hc]
      rfl
    · rw [if_neg hc, if_pos rfl]
      show ([c].dropWhile isWS).reverse = [c]
      rw [List.dropWhile_cons_of_neg (by simpa using hc)]
      rfl
  · have h2 : (y.reverse.dropWhile isWS).isEmpty = false := by
      cases he : (y.reverse.dropWhile isWS).isEmpty
      · rfl
      · exfalso
        apply h
        show (trimStart y.reverse).reverse = []
        rw [show trimStart y.reverse = [] from List.isEmpty_iff.mp he]
        rfl
    rw [if_neg h, h2, if_neg (by simp)]
    rw [List.reverse_append]
    rfl

theorem trimStart_trimEnd_comm (l : List Char) :
    trimStart (trimEnd l) = trimEnd (trimStart l) := by
  induction l with
  | nil => rfl
  | cons c cs ih =>
    cases hc : isWS c
    · by_cases h : trimEnd cs = []
      · rw [trimEnd_cons, if_pos h, if_neg (by simp [hc]),
          trimStart_cons_not_ws ([] : List Char) hc,
          trimStart_cons_not_ws cs hc,
          trimEnd_cons, if_pos h, if_neg (by simp [hc])]
      · rw [trimEnd_cons, if_neg h,
          trimStart_cons_not_ws (trimEnd cs) hc,
          trimStart_cons_not_ws cs hc,
          trimEnd_cons, if_neg h]
    · by_cases h : trimEnd cs = []
      · rw [trimEnd_cons, if_pos h, if_pos (by simp [hc]),
          trimStart_cons_ws cs hc]
        have hall : ∀ x ∈ cs, isWS x = true := trimEnd_eq_nil_iff.mp h
        rw [show trimStart cs = [] from trimStart_eq_nil_iff.mpr hall]
        rfl
      · rw [trimEnd_cons, if_neg h, trimStart_cons_ws (trimEnd cs) hc,
          trimStart_cons_ws cs hc, ih]

theorem trimEnd_idem (l : List Char) : trimEnd (trimEnd l) = trimEnd l := by
  show ((trimEnd l).reverse.dropWhile isWS).reverse = trimEnd l
  rw [show (trimEnd l).reverse = List.dropWhile isWS l.reverse by
    simp [trimEnd, trimStart]]
  rw [List.dropWhile_idempotent]
  rfl

theorem jsTrim_idem (l : List Char) : jsTrim (jsTrim l) = jsTrim l := by
  show trimEnd (trimStart (trimEnd (trimStart l))) = trimEnd (trimStart l)
  rw [trimStart_trimEnd_comm, trimEnd_idem, trimStart_idem]

theorem mem_dropWhile_of_not {p : Char → Bool} {c : Char} {l : List Char}
    (hc : c ∈ l) (hn : p c = false) : c ∈ l.dropWhile p := by
  have hsplit := List.takeWhile_append_dropWhile (p := p) (l := l)
  rcases List.mem_append.mp (by rw [hsplit]; exact hc) with h | h
  · exact absurd (List.mem_takeWhile_imp h) (by simp [hn])
  · exact h

theorem jsTrim_ne_nil_of_mem {c : Char} {l : List Char} (hc : c ∈ l)
    (hn : isWS c = false) : jsTrim l ≠ [] := by
  have h1 : c ∈ trimStart l := mem_dropWhile_of_not hc hn
  have h2 : c ∈ trimEnd (trimStart l) := by
    show c ∈ ((trimStart l).reverse.dropWhile isWS).reverse
    rw [List.mem_reverse]
    exact mem_dropWhile_of_not (by simpa using h1) hn
  intro hnil
  have h3 : trimEnd (trimStart l) = [] := hnil
  rw [h3] at h2
  simp at h2

theorem jsTrim_eq_nil_iff {l : List Char} :
    jsTrim l = [] ↔ ∀ c ∈ l, isWS c = true := by
  constructor
  · intro h c hc
    by_contra hns
    exact jsTrim_ne_nil_of_mem hc (by
      cases hw : isWS c
      · rfl
      · exact absurd hw hns) h
  · exact jsTrim_of_all_ws


theorem trimStart_suffix (l : List Char) : trimStart l <:+ l :=
  List.dropWhile_suffix isWS

theorem trimEnd_pfx (y : List Char) : trimEnd y <+: y := by
  have h : (trimEnd y).reverse <:+ y.reverse := by
    show ((trimStart y.reverse).reverse).reverse <:+ y.reverse
    rw [List.reverse_reverse]
    exact List.dropWhile_suffix isWS
  exact List.reverse_suffix.mp (by simpa using h)

theorem trimEnd_eq_self_of {l : List Char}
    (hl : ∀ c, l.getLast? = some c → isWS c = false) : trimEnd l = l := by
  show ((l.reverse).dropWhile isWS).reverse = l
  cases hr : l.reverse with
  | nil =>
    have : l = [] := by simpa using congrArg List.reverse hr
    rw [this]
    rfl
  | cons d ds =>
    have hd : l.getLast? = some d := by
      rw [← List.head?_reverse, hr]
      rfl
    rw [List.dropWhile_cons_of_neg (by simp [hl d hd]), ← hr,
      List.reverse_reverse]

theorem jsTrim_eq_self_of {l : List Char}
    (hh : ∀ c, l.head? = some c → isWS c = false)
    (hl : ∀ c, l.getLast? = some c → isWS c = false) : jsTrim l = l := by
  have h1 : trimStart l = l := by
    cases l with
    | nil => rfl
    | cons c cs => exact trimStart_cons_not_ws cs (hh c rfl)
  show trimEnd (trimStart l) = l
  rw [h1, trimEnd_eq_self_of hl]

theorem jsTrim_head_not_ws {l : List Char} {c : Char} {r : List Char}
    (h : jsTrim l = c :: r) : isWS c = false := by
  have hp : jsTrim l <+: trimStart l := trimEnd_pfx (trimStart l)
  rw [h] at hp
  obtain ⟨t, ht⟩ := hp
  exact trimStart_head_not_ws (l := l) (show trimStart l = c :: (r ++ t) by
    rw [← ht]; simp)

theorem jsTrim_last_not_ws {l : List Char} {c : Char}
    (h : (jsTrim l).getLast? = some c) : isWS c = false := by
  have h1 : (jsTrim l).reverse.head? = some c := by
    rw [List.head?_reverse]
    exact h
  have e : (jsTrim l).reverse = List.dropWhile isWS (trimStart l).reverse := by
    show (trimEnd (trimStart l)).reverse = _
    simp [trimEnd, trimStart]
  rw [e] at h1
  cases hd : List.dropWhile isWS (trimStart l).reverse with
  | nil => rw [hd] at h1; simp at h1
  | cons d ds =>
    rw [hd] at h1
    have hcd : d = c := by simpa using h1
    have h2 := List.head?_dropWhile_not isWS (trimStart l).reverse
    rw [hd] at h2
    simpa [hcd] using h2

/-! ## Reverse transport for lines -/

/-- The last piece of a line list (`[]` for the empty list). -/
def lastD (ls : List (List Char)) : List Char := ls.getLast?.getD []

theorem lastD_single (a : List Char) : lastD [a] = a := rfl

theorem lastD_cons_cons (a b : List Char) (t : List (List Char)) :
    lastD (a :: b :: t) = lastD (b :: t) := by
  simp [lastD, List.getLast?_cons_cons]

theorem splitNl_append_char {c : Char} (hne : ¬c = '\n') :
    ∀ u : List Char,
      splitNl (u ++ [c]) =
        (splitNl u).dropLast ++ [lastD (splitNl u) ++ [c]] := by
  intro u
  induction u with
  | nil =>
    rw [List.nil_append,
      splitNl_cons_of_ne hne (show splitNl [] = [] :: [] from rfl)]
    rfl
  | cons d ds ih =>
    by_cases hd : d = '\n'
    · subst hd
      rw [List.cons_append, splitNl_cons_nl, ih, splitNl_cons_nl]
      rw [List.dropLast_cons_of_ne_nil (splitNl_ne_nil _)]
      obtain ⟨h0, t0, hds⟩ := exists_cons_splitNl ds
      rw [hds]
      rw [show lastD ([] :: h0 :: t0) = lastD (h0 :: t0) from
        lastD_cons_cons _ _ _]
      rfl
    · obtain ⟨h0, t0, hds⟩ := exists_cons_splitNl ds
      have hds2 : splitNl (ds ++ [c]) =
          (h0 :: t0).dropLast ++ [lastD (h0 :: t0) ++ [c]] := by
        rw [ih, hds]
      cases t0 with
      | nil =>
        rw [List.cons_append,
          splitNl_cons_of_ne hd (show splitNl (ds ++ [c]) =
            (h0 ++ [c]) :: [] from by rw [hds2]; rfl),
          splitNl_cons_of_ne hd hds]
        rfl
      | cons x xs =>
        have hne2 : (x :: xs) ≠ ([] : List (List Char)) := by simp
        have hds3 : splitNl (ds ++ [c]) =
            h0 :: ((x :: xs).dropLast ++ [lastD (x :: xs) ++ [c]]) := by
          rw [hds2, List.dropLast_cons_of_ne_nil hne2,
            lastD_cons_cons h0 x xs]
          rfl
        rw [List.cons_append, splitNl_cons_of_ne hd hds3,
          splitNl_cons_of_ne hd hds,
          List.dropLast_cons_of_ne_nil hne2, lastD_cons_cons (d :: h0) x xs]
        rfl

theorem splitNl_nil : splitNl ([] : List Char) = [[]] := rfl

theorem splitNl_reverse (s : List Char) :
    splitNl s.reverse = ((splitNl s).map List.reverse).reverse := by
  induction s with
  | nil => rfl
  | cons c cs ih =>
    by_cases hc : c = '\n'
    · subst hc
      rw [List.reverse_cons, splitNl_append_nl, splitNl_cons_nl, ih,
        splitNl_nil]
      simp
    · obtain ⟨h0, t0, hcs⟩ := exists_cons_splitNl cs
      rw [List.reverse_cons, splitNl_append_char hc, ih,
        splitNl_cons_of_ne hc hcs, hcs]
      simp only [List.map_cons, List.reverse_cons]
      rw [List.dropLast_concat]
      rw [show lastD ((t0.map List.reverse).reverse ++ [h0.reverse]) =
          h0.reverse from by simp [lastD]]

theorem jsTrim_reverse (l : List Char) :
    jsTrim l.reverse = (jsTrim l).reverse := by
  show trimEnd (trimStart l.reverse) = (trimEnd (trimStart l)).reverse
  have h1 : trimStart l.reverse = (trimEnd l).reverse := by
    simp [trimEnd]
  rw [h1]
  show (trimStart (trimEnd l).reverse.reverse).reverse = _
  rw [List.reverse_reverse]
  have h2 : trimStart (trimEnd l) = trimEnd (trimStart l) :=
    trimStart_trimEnd_comm l
  rw [h2]

theorem lines_trimStart_corr (x : List Char) :
    ∀ l ∈ splitNl (trimStart x), ∃ l0 ∈ splitNl x, jsTrim l = jsTrim l0 := by
  induction x with
  | nil => intro l hl; exact ⟨l, hl, rfl⟩
  | cons c cs ih =>
    intro l hl
    cases hc : isWS c
    · rw [trimStart_cons_not_ws cs hc] at hl
      exact ⟨l, hl, rfl⟩
    · rw [trimStart_cons_ws cs hc] at hl
      obtain ⟨l0, hl0, he⟩ := ih l hl
      by_cases hcn : c = '\n'
      · subst hcn
        exact ⟨l0, by rw [splitNl_cons_nl]; exact List.mem_cons_of_mem _ hl0, he⟩
      · obtain ⟨h0, t0, hcs⟩ := exists_cons_splitNl cs
        rw [hcs] at hl0
        rcases List.mem_cons.mp hl0 with h1 | h1
        · subst h1
          refine ⟨c :: l0, ?_, ?_⟩
          · rw [splitNl_cons_of_ne hcn hcs]
            exact List.mem_cons_self _ _
          · rw [he, jsTrim_cons_ws _ hc]
        · exact ⟨l0, by
            rw [splitNl_cons_of_ne hcn hcs]
            exact List.mem_cons_of_mem _ h1, he⟩

theorem mem_splitNl_reverse {s l : List Char}
    (h : l ∈ splitNl s.reverse) : l.reverse ∈ splitNl s := by
  rw [splitNl_reverse, List.mem_reverse, List.mem_map] at h
  obtain ⟨m, hm, hml⟩ := h
  rw [← hml, List.reverse_reverse]
  exact hm

theorem lines_trimEnd_corr (x : List Char) :
    ∀ l ∈ splitNl (trimEnd x), ∃ l0 ∈ splitNl x, jsTrim l = jsTrim l0 := by
  intro l hl
  have h1 : l.reverse ∈ splitNl (trimStart x.reverse) := by
    apply mem_splitNl_reverse
    exact hl
  obtain ⟨m0, hm0, hme⟩ := lines_trimStart_corr x.reverse l.reverse h1
  have h2 : m0.reverse ∈ splitNl x := mem_splitNl_reverse hm0
  refine ⟨m0.reverse, h2, ?_⟩
  have h4 : jsTrim l.reverse = jsTrim (m0.reverse).reverse := by
    rw [hme, List.reverse_reverse]
  rw [jsTrim_reverse, jsTrim_reverse] at h4
  exact List.reverse_injective h4

theorem lines_jsTrim_corr (x : List Char) :
    ∀ l ∈ splitNl (jsTrim x), ∃ l0 ∈ splitNl x, jsTrim l = jsTrim l0 := by
  intro l hl
  obtain ⟨m, hm, hme⟩ := lines_trimEnd_corr (trimStart x) l hl
  obtain ⟨l0, hl0, hle⟩ := lines_trimStart_corr x m hm
  exact ⟨l0, hl0, by rw [hme, hle]⟩


/-! ## splitWS / collapseWS structure -/

theorem splitWS_nil : splitWS ([] : List Char) = [[]] := rfl

theorem splitWS_single (c : Char) :
    splitWS [c] = if isWS c then [[], []] else [[c]] := rfl

theorem splitWS_cons2 (c d : Char) (cs : List Char) :
    splitWS (c :: d :: cs) =
      if isWS c then
        (if isWS d then splitWS (d :: cs) else [] :: splitWS (d :: cs))
      else
        match splitWS (d :: cs) with
        | [] => [[c]]
        | h :: t => (c :: h) :: t := rfl

theorem splitWS_ne_nil (s : List Char) : splitWS s ≠ [] := by
  induction s with
  | nil => simp [splitWS]
  | cons c cs ih =>
    cases cs with
    | nil =>
      rw [splitWS_single]
      split <;> simp
    | cons d ds =>
      rw [splitWS_cons2]
      by_cases hc : isWS c
      · rw [if_pos hc]
        by_cases hd : isWS d
        · rw [if_pos hd]; exact ih
        · rw [if_neg hd]; simp
      · rw [if_neg hc]
        cases splitWS (d :: ds) <;> simp

theorem exists_cons_splitWS (s : List Char) :
    ∃ h0 t0, splitWS s = h0 :: t0 := by
  cases hs : splitWS s with
  | nil => exact absurd hs (splitWS_ne_nil s)
  | cons a b => exact ⟨a, b, rfl⟩

theorem splitWS_cons_not_ws {c : Char} {z h0 : List Char}
    {t0 : List (List Char)} (hc : isWS c = false)
    (hz : splitWS z = h0 :: t0) :
    splitWS (c :: z) = (c :: h0) :: t0 := by
  cases z with
  | nil =>
    rw [splitWS_nil] at hz
    have h1 : h0 = [] := by
      have := congrArg (fun x => x.head?) hz
      simpa using this.symm
    have h2 : t0 = [] := by
      have := congrArg List.tail hz
      simpa using this.symm
    subst h1; subst h2
    rw [splitWS_single, if_neg (by simp [hc])]
  | cons d ds =>
    rw [splitWS_cons2, if_neg (by simp [hc]), hz]

theorem splitWS_cons_ws {c : Char} (z : List Char) (hc : isWS c = true) :
    splitWS (c :: z) = [] :: splitWS (z.dropWhile isWS) := by
  induction z generalizing c with
  | nil =>
    rw [splitWS_single, if_pos hc]
    rfl
  | cons d ds ih =>
    rw [splitWS_cons2, if_pos hc]
    by_cases hd : isWS d
    · rw [if_pos hd, ih hd, List.dropWhile_cons_of_pos hd]
    · rw [if_neg hd, List.dropWhile_cons_of_neg (by simp [hd])]

theorem collapseWS_single (c : Char) :
    collapseWS [c] = if isWS c then [' '] else [c] := rfl

theorem collapseWS_cons_not_ws {c : Char} (z : List Char)
    (hc : isWS c = false) : collapseWS (c :: z) = c :: collapseWS z := by
  cases z with
  | nil =>
    rw [collapseWS_single, if_neg (by simp [hc])]
    rfl
  | cons d ds =>
    rw [collapseWS_cons2, if_neg (by simp [hc])]

theorem collapseWS_cons_ws {c : Char} (z : List Char) (hc : isWS c = true) :
    collapseWS (c :: z) = ' ' :: collapseWS (z.dropWhile isWS) := by
  induction z generalizing c with
  | nil =>
    rw [collapseWS_single, if_pos hc]
    rfl
  | cons d ds ih =>
    rw [collapseWS_cons2, if_pos hc]
    by_cases hd : isWS d
    · rw [if_pos hd, ih hd, List.dropWhile_cons_of_pos hd]
    · rw [if_neg hd, List.dropWhile_cons_of_neg (by simp [hd])]


/-- The whitespace-separated tokens of a string: the nonempty pieces of
`splitWS`. -/
def tokensOf (s : List Char) : List (List Char) :=
  (splitWS s).filter (fun t => ¬t.isEmpty)

/-- `true` when the string starts with a whitespace character. -/
def leadWS : List Char → Bool
  | [] => false
  | c :: _ => isWS c

theorem tokensOf_nil : tokensOf [] = [] := rfl

theorem tokensOf_cons_ws {c : Char} (z : List Char) (hc : isWS c = true) :
    tokensOf (c :: z) = tokensOf (z.dropWhile isWS) := by
  unfold tokensOf
  rw [splitWS_cons_ws z hc, List.filter_cons]
  simp

theorem tokensOf_dropWhile (z : List Char) :
    tokensOf (z.dropWhile isWS) = tokensOf z := by
  cases z with
  | nil => rfl
  | cons c cs =>
    by_cases hc : isWS c
    · rw [List.dropWhile_cons_of_pos hc, tokensOf_cons_ws cs hc]
    · rw [List.dropWhile_cons_of_neg (by simp [hc])]

theorem tokensOf_cons_not_ws {c : Char} {z h0 : List Char}
    {t0 : List (List Char)} (hc : isWS c = false)
    (hz : splitWS z = h0 :: t0) :
    tokensOf (c :: z) =
      (c :: h0) :: t0.filter (fun t => ¬t.isEmpty) := by
  unfold tokensOf
  rw [splitWS_cons_not_ws hc hz, List.filter_cons]
  simp

theorem splitWS_append_ws_aux :
    ∀ (n : Nat) (x w : List Char), x.length ≤ n →
      (∀ c ∈ w, isWS c = true) →
      ∃ h0 t0 t1, splitWS x = h0 :: t0 ∧ splitWS (x ++ w) = h0 :: t1 ∧
        t1.filter (fun t => ¬t.isEmpty) =
          t0.filter (fun t => ¬t.isEmpty) := by
  intro n
  induction n with
  | zero =>
    intro x w hx hw
    have hx0 : x = [] := List.length_eq_zero.mp (Nat.le_zero.mp hx)
    subst hx0
    cases w with
    | nil => exact ⟨[], [], [], rfl, rfl, rfl⟩
    | cons d ds =>
      refine ⟨[], [], [[]], rfl, ?_, rfl⟩
      rw [List.nil_append,
        splitWS_cons_ws ds (hw d (List.mem_cons_self _ _)),
        List.dropWhile_eq_nil_iff.mpr
          (fun c hc => hw c (List.mem_cons_of_mem _ hc))]
      rfl
  | succ n ih =>
    intro x w hx hw
    cases x with
    | nil =>
      cases w with
      | nil => exact ⟨[], [], [], rfl, rfl, rfl⟩
      | cons d ds =>
        refine ⟨[], [], [[]], rfl, ?_, rfl⟩
        rw [List.nil_append,
          splitWS_cons_ws ds (hw d (List.mem_cons_self _ _)),
          List.dropWhile_eq_nil_iff.mpr
            (fun c hc => hw c (List.mem_cons_of_mem _ hc))]
        rfl
    | cons c cs =>
      have hcs : cs.length ≤ n := by
        simp only [List.length_cons] at hx
        omega
      by_cases hc : isWS c
      · rw [List.cons_append, splitWS_cons_ws cs hc,
          splitWS_cons_ws (cs ++ w) hc]
        rw [List.dropWhile_append]
        by_cases hd : (cs.dropWhile isWS).isEmpty
        · rw [if_pos hd]
          rw [List.isEmpty_iff.mp hd]
          rw [List.dropWhile_eq_nil_iff.mpr hw]
          exact ⟨[], splitWS [], splitWS [], rfl, rfl, rfl⟩
        · rw [if_neg hd]
          obtain ⟨h0, t0, t1, e0, e1, ef⟩ :=
            ih (cs.dropWhile isWS) w
              (le_trans (length_dropWhile_le isWS cs) hcs) hw
          refine ⟨[], h0 :: t0, h0 :: t1, by rw [e0], by rw [e1], ?_⟩
          rw [List.filter_cons, List.filter_cons, ef]
      · have hc2 : isWS c = false := by
          cases h2 : isWS c
          · rfl
          · exact absurd h2 hc
        obtain ⟨h0, t0, t1, e0, e1, ef⟩ := ih cs w hcs hw
        exact ⟨c :: h0, t0, t1, splitWS_cons_not_ws hc2 e0,
          by rw [List.cons_append]; exact splitWS_cons_not_ws hc2 e1, ef⟩

theorem tokensOf_append_ws {x w : List Char}
    (hw : ∀ c ∈ w, isWS c = true) : tokensOf (x ++ w) = tokensOf x := by
  obtain ⟨h0, t0, t1, e0, e1, ef⟩ :=
    splitWS_append_ws_aux x.length x w le_rfl hw
  unfold tokensOf
  rw [e0, e1, List.filter_cons, List.filter_cons, ef]

theorem splitWS_append_nl_aux :
    ∀ (n : Nat) (x y : List Char), x.length ≤ n →
      ∃ h0 t0 t1, splitWS x = h0 :: t0 ∧
        splitWS (x ++ '\n' :: y) = h0 :: t1 ∧
        t1.filter (fun t => ¬t.isEmpty) =
          t0.filter (fun t => ¬t.isEmpty) ++ tokensOf y := by
  intro n
  induction n with
  | zero =>
    intro x y hx
    have hx0 : x = [] := List.length_eq_zero.mp (Nat.le_zero.mp hx)
    subst hx0
    refine ⟨[], [], splitWS (y.dropWhile isWS), rfl, ?_, ?_⟩
    · rw [List.nil_append, splitWS_cons_ws y (by decide)]
    · show (splitWS (y.dropWhile isWS)).filter _ = [] ++ tokensOf y
      rw [List.nil_append]
      exact tokensOf_dropWhile y
  | succ n ih =>
    intro x y hx
    cases x with
    | nil =>
      refine ⟨[], [], splitWS (y.dropWhile isWS), rfl, ?_, ?_⟩
      · rw [List.nil_append, splitWS_cons_ws y (by decide)]
      · show (splitWS (y.dropWhile isWS)).filter _ = [] ++ tokensOf y
        rw [List.nil_append]
        exact tokensOf_dropWhile y
    | cons c cs =>
      have hcs : cs.length ≤ n := by
        simp only [List.length_cons] at hx
        omega
      by_cases hc : isWS c
      · rw [List.cons_append, splitWS_cons_ws cs hc,
          splitWS_cons_ws (cs ++ '\n' :: y) hc]
        rw [List.dropWhile_append]
        by_cases hd : (cs.dropWhile isWS).isEmpty
        · rw [if_pos hd]
          rw [List.isEmpty_iff.mp hd]
          rw [List.dropWhile_cons_of_pos (show isWS '\n' = true by decide)]
          refine ⟨[], splitWS [], splitWS (y.dropWhile isWS), rfl, rfl, ?_⟩
          show (splitWS (y.dropWhile isWS)).filter _ =
            (splitWS []).filter _ ++ tokensOf y
          rw [show (splitWS ([] : List Char)).filter
            (fun t => ¬t.isEmpty) = [] from rfl]
          rw [List.nil_append]
          exact tokensOf_dropWhile y
        · rw [if_neg hd]
          obtain ⟨h0, t0, t1, e0, e1, ef⟩ :=
            ih (cs.dropWhile isWS) y
              (le_trans (length_dropWhile_le isWS cs) hcs)
          refine ⟨[], h0 :: t0, h0 :: t1, by rw [e0], by rw [e1], ?_⟩
          rw [List.filter_cons, List.filter_cons, ef]
          split <;> rfl
      · have hc2 : isWS c = false := by
          cases h2 : isWS c
          · rfl
          · exact absurd h2 hc
        obtain ⟨h0, t0, t1, e0, e1, ef⟩ := ih cs y hcs
        exact ⟨c :: h0, t0, t1, splitWS_cons_not_ws hc2 e0,
          by rw [List.cons_append]; exact splitWS_cons_not_ws hc2 e1, ef⟩

theorem tokensOf_append_nl (x y : List Char) :
    tokensOf (x ++ '\n' :: y) = tokensOf x ++ tokensOf y := by
  obtain ⟨h0, t0, t1, e0, e1, ef⟩ :=
    splitWS_append_nl_aux x.length x y le_rfl
  unfold tokensOf
  rw [e0, e1, List.filter_cons, List.filter_cons, ef]
  split <;> rfl


/-- `join(' ')` over tokens: the canonical whitespace-collapsed form. -/
def joinSp (ls : List (List Char)) : List Char := List.intercalate [' '] ls

theorem joinSp_cons (a : List Char) (ls : List (List Char)) :
    joinSp (a :: ls) = a ++ (if ls = [] then [] else ' ' :: joinSp ls) := by
  cases ls with
  | nil => simp [joinSp, List.intercalate]
  | cons b t =>
    rw [if_neg (by simp)]
    show (List.intersperse [' '] (a :: b :: t)).flatten = _
    rw [List.intersperse_cons₂]
    show a ++ ([' '] ++ (List.intersperse [' '] (b :: t)).flatten) = _
    rfl

theorem mem_tokensOf_ne_nil {s t : List Char} (h : t ∈ tokensOf s) :
    t ≠ [] := by
  unfold tokensOf at h
  have h2 := List.of_mem_filter h
  simpa [List.isEmpty_iff] using h2

theorem joinSp_tokens_ne_nil {s : List Char} {h0 : List Char}
    {rest : List (List Char)} (he : tokensOf s = h0 :: rest) :
    joinSp (tokensOf s) ≠ [] := by
  have h1 : h0 ∈ tokensOf s := by rw [he]; exact List.mem_cons_self _ _
  have h2 := mem_tokensOf_ne_nil h1
  rw [he, joinSp_cons]
  simp [h2]

theorem leadWS_dropWhile (z : List Char) :
    leadWS (z.dropWhile isWS) = false := by
  cases hd : z.dropWhile isWS with
  | nil => rfl
  | cons d ds =>
    have h2 := List.head?_dropWhile_not isWS z
    rw [hd] at h2
    simpa [leadWS] using h2

theorem splitWS_head_nil {z : List Char} {t : List (List Char)}
    (h : splitWS z = [] :: t) : z = [] ∨ leadWS z = true := by
  cases z with
  | nil => exact Or.inl rfl
  | cons c cs =>
    cases hc : isWS c
    · exfalso
      obtain ⟨h0, t0, hcs⟩ := exists_cons_splitWS cs
      rw [splitWS_cons_not_ws hc hcs] at h
      have := congrArg (fun x => x.head?) h
      simp at this
    · exact Or.inr hc

theorem splitWS_head_cons_not_ws {c : Char} {cs h0 : List Char}
    {t : List (List Char)} (h : splitWS (c :: cs) = h0 :: t)
    (hne : h0 ≠ []) : isWS c = false := by
  cases hc : isWS c
  · rfl
  · exfalso
    rw [splitWS_cons_ws cs hc] at h
    have h2 := congrArg (fun x => x.head?) h
    simp at h2
    exact hne h2

theorem trimEnd_collapseWS :
    ∀ (n : Nat) (x : List Char), x.length ≤ n →
      trimEnd (collapseWS x) =
        if tokensOf x = [] then []
        else (if leadWS x then [' '] else []) ++ joinSp (tokensOf x) := by
  intro n
  induction n with
  | zero =>
    intro x hx
    have hx0 : x = [] := List.length_eq_zero.mp (Nat.le_zero.mp hx)
    subst hx0
    rfl
  | succ n ih =>
    intro x hx
    cases x with
    | nil => rfl
    | cons c cs =>
      have hcs : cs.length ≤ n := by
        simp only [List.length_cons] at hx
        omega
      cases hc : isWS c
      · -- c is not whitespace
        obtain ⟨h0, t0, hsp⟩ := exists_cons_splitWS cs
        have hne1 : ¬(tokensOf (c :: cs) = []) := by
          rw [tokensOf_cons_not_ws hc hsp]
          simp
        rw [if_neg hne1]
        have hlw : leadWS (c :: cs) = false := hc
        rw [hlw, if_neg Bool.false_ne_true, List.nil_append]
        rw [collapseWS_cons_not_ws cs hc, trimEnd_cons,
          tokensOf_cons_not_ws hc hsp]
        have ihcs := ih cs hcs
        by_cases hz : trimEnd (collapseWS cs) = []
        · rw [if_pos hz, hc, if_neg Bool.false_ne_true]
          have htk : tokensOf cs = [] := by
            by_contra htk
            rw [ihcs, if_neg htk] at hz
            obtain ⟨a, rest, ha⟩ : ∃ a rest, tokensOf cs = a :: rest := by
              cases h2 : tokensOf cs with
              | nil => exact absurd h2 htk
              | cons a rest => exact ⟨a, rest, rfl⟩
            have h3 := joinSp_tokens_ne_nil ha
            rcases List.append_eq_nil.mp hz with ⟨-, h4⟩
            exact h3 h4
          have hfil : t0.filter (fun t => ¬t.isEmpty) = [] ∧ h0 = [] := by
            unfold tokensOf at htk
            rw [hsp, List.filter_cons] at htk
            by_cases hh : h0.isEmpty
            · refine ⟨?_, List.isEmpty_iff.mp hh⟩
              simpa [hh] using htk
            · simp [hh] at htk
          rw [hfil.1, hfil.2, joinSp_cons, if_pos rfl]
          rfl
        · rw [if_neg hz]
          have htk : tokensOf cs ≠ [] := by
            intro h2
            rw [ihcs, if_pos h2] at hz
            exact hz rfl
          rw [ihcs, if_neg htk]
          have htcs : tokensOf cs =
              if h0.isEmpty then t0.filter (fun t => ¬t.isEmpty)
              else h0 :: t0.filter (fun t => ¬t.isEmpty) := by
            unfold tokensOf
            rw [hsp, List.filter_cons]
            by_cases hh : h0.isEmpty
            · simp [hh]
            · simp [hh]
          by_cases hh : h0.isEmpty
          · have hh0 : h0 = [] := List.isEmpty_iff.mp hh
            subst hh0
            rw [if_pos hh] at htcs
            have hF : t0.filter (fun t => ¬t.isEmpty) ≠ [] := by
              rw [htcs] at htk
              exact htk
            have hlw2 : leadWS cs = true := by
              rcases splitWS_head_nil hsp with h2 | h2
              · exfalso
                subst h2
                rw [splitWS_nil] at hsp
                have h3 := congrArg (fun x => x.tail) hsp
                simp at h3
                rw [h3] at hF
                exact hF rfl
              · exact h2
            rw [hlw2, if_pos rfl, htcs, joinSp_cons, if_neg hF]
            simp
          · have hh0 : h0 ≠ [] := by
              intro h2
              rw [h2] at hh
              simp at hh
            rw [if_neg hh] at htcs
            have hlw2 : leadWS cs = false := by
              cases cs with
              | nil =>
                rw [splitWS_nil] at hsp
                have h2 := congrArg (fun x => x.head?) hsp
                simp at h2
                exact absurd h2 hh0
              | cons d ds => exact splitWS_head_cons_not_ws hsp hh0
            rw [hlw2, if_neg Bool.false_ne_true, List.nil_append,
              htcs, joinSp_cons, joinSp_cons]
            simp
      · -- c is whitespace
        rw [collapseWS_cons_ws cs hc, trimEnd_cons,
          tokensOf_cons_ws cs hc]
        have ihd := ih (cs.dropWhile isWS)
          (le_trans (length_dropWhile_le isWS cs) hcs)
        rw [leadWS_dropWhile, if_neg Bool.false_ne_true,
          List.nil_append] at ihd
        by_cases htk : tokensOf (cs.dropWhile isWS) = []
        · have hz : trimEnd (collapseWS (cs.dropWhile isWS)) = [] := by
            rw [ihd, if_pos htk]
          rw [if_pos hz, if_pos htk,
            if_pos (show isWS ' ' = true from rfl)]
        · obtain ⟨a, rest, ha⟩ : ∃ a rest,
              tokensOf (cs.dropWhile isWS) = a :: rest := by
            cases h2 : tokensOf (cs.dropWhile isWS) with
            | nil => exact absurd h2 htk
            | cons a rest => exact ⟨a, rest, rfl⟩
          have hne : trimEnd (collapseWS (cs.dropWhile isWS)) ≠ [] := by
            rw [ihd, if_neg htk]
            exact joinSp_tokens_ne_nil ha
          rw [if_neg hne, if_neg htk]
          have hlw : leadWS (c :: cs) = true := hc
          rw [hlw, if_pos rfl, ihd, if_neg htk]
          rfl

theorem trimStart_collapseWS (x : List Char) :
    trimStart (collapseWS x) = collapseWS (trimStart x) := by
  cases x with
  | nil => rfl
  | cons c cs =>
    cases hc : isWS c
    · rw [collapseWS_cons_not_ws cs hc, trimStart_cons_not_ws _ hc,
        trimStart_cons_not_ws cs hc, collapseWS_cons_not_ws cs hc]
    · rw [collapseWS_cons_ws cs hc,
        trimStart_cons_ws (collapseWS (cs.dropWhile isWS)) (by decide),
        trimStart_cons_ws cs hc]
      rw [show trimStart cs = cs.dropWhile isWS from rfl]
      cases hd : cs.dropWhile isWS with
      | nil => rfl
      | cons d ds =>
        have hdw : isWS d = false := by
          have h2 := List.head?_dropWhile_not isWS cs
          rw [hd] at h2
          simpa using h2
        rw [collapseWS_cons_not_ws ds hdw,
          trimStart_cons_not_ws (collapseWS ds) hdw]

theorem canon_eq (x : List Char) :
    jsTrim (collapseWS x) = joinSp (tokensOf x) := by
  show trimEnd (trimStart (collapseWS x)) = _
  rw [trimStart_collapseWS,
    trimEnd_collapseWS (trimStart x).length (trimStart x) le_rfl]
  rw [show trimStart x = x.dropWhile isWS from rfl]
  rw [leadWS_dropWhile, if_neg Bool.false_ne_true, List.nil_append,
    tokensOf_dropWhile]
  by_cases htk : tokensOf x = []
  · rw [if_pos htk, htk]
    rfl
  · rw [if_neg htk]


theorem jsLower_nl_eq : jsLower '\n' = '\n' := (jsLower_nl '\n').mpr rfl

theorem dropWhile_map_jsLower (x : List Char) :
    (x.map jsLower).dropWhile isWS = (x.dropWhile isWS).map jsLower := by
  induction x with
  | nil => rfl
  | cons c cs ih =>
    simp only [List.map_cons, List.dropWhile_cons, jsLower_isWS]
    cases h : isWS c
    · simp
    · simpa using ih

theorem trimStart_map_jsLower (x : List Char) :
    trimStart (x.map jsLower) = (trimStart x).map jsLower :=
  dropWhile_map_jsLower x

theorem trimEnd_map_jsLower (x : List Char) :
    trimEnd (x.map jsLower) = (trimEnd x).map jsLower := by
  show (trimStart (List.map jsLower x).reverse).reverse = _
  have h1 : (List.map jsLower x).reverse = List.map jsLower x.reverse := by
    simp
  rw [h1, trimStart_map_jsLower]
  show (List.map jsLower (trimStart x.reverse)).reverse = _
  simp [trimEnd]

theorem jsTrim_map_jsLower (x : List Char) :
    jsTrim (x.map jsLower) = (jsTrim x).map jsLower := by
  unfold jsTrim
  rw [trimStart_map_jsLower, trimEnd_map_jsLower]

theorem splitNl_map_jsLower (x : List Char) :
    splitNl (x.map jsLower) = (splitNl x).map (List.map jsLower) := by
  induction x with
  | nil => rfl
  | cons c cs ih =>
    by_cases h : c = '\n'
    · subst h
      rw [List.map_cons, jsLower_nl_eq, splitNl_cons_nl, splitNl_cons_nl,
        ih, List.map_cons]
      rfl
    · have h2 : ¬jsLower c = '\n' := fun h3 => h ((jsLower_nl c).mp h3)
      obtain ⟨h0, t0, hcs⟩ : ∃ h0 t0, splitNl cs = h0 :: t0 := by
        cases hx : splitNl cs with
        | nil => exact absurd hx (splitNl_ne_nil cs)
        | cons a b => exact ⟨a, b, rfl⟩
      have hcs2 : splitNl (cs.map jsLower) =
          (h0.map jsLower) :: t0.map (List.map jsLower) := by
        rw [ih, hcs, List.map_cons]
      rw [List.map_cons, splitNl_cons_of_ne h2 hcs2,
        splitNl_cons_of_ne h hcs, List.map_cons, List.map_cons]

theorem joinNl_map_jsLower (L : List (List Char)) :
    joinNl (L.map (List.map jsLower)) = (joinNl L).map jsLower := by
  induction L with
  | nil => rfl
  | cons a ls ih =>
    cases ls with
    | nil =>
      rw [List.map_cons, List.map_nil, joinNl_single, joinNl_single]
    | cons b t =>
      rw [List.map_cons, joinNl_cons _ _ (by simp),
        joinNl_cons _ _ (by simp), ih, List.map_append, List.map_cons,
        jsLower_nl_eq]

theorem tokensOf_joinNl (L : List (List Char)) :
    tokensOf (joinNl L) = (L.map tokensOf).flatten := by
  induction L with
  | nil => rfl
  | cons a ls ih =>
    cases ls with
    | nil =>
      rw [joinNl_single, List.map_cons, List.map_nil]
      simp
    | cons b t =>
      rw [joinNl_cons _ _ (by simp), tokensOf_append_nl, ih]
      simp

theorem tokensOf_trimEnd (y : List Char) :
    tokensOf (trimEnd y) = tokensOf y := by
  have h3 : trimEnd y = (y.reverse.dropWhile isWS).reverse := rfl
  have h1 : y.reverse.takeWhile isWS ++ y.reverse.dropWhile isWS =
      y.reverse := List.takeWhile_append_dropWhile isWS y.reverse
  have h2 := congrArg List.reverse h1
  rw [List.reverse_append, List.reverse_reverse] at h2
  conv_rhs => rw [← h2]
  rw [← h3, tokensOf_append_ws]
  intro c hc
  rw [List.mem_reverse] at hc
  exact List.mem_takeWhile_imp hc

theorem tokensOf_jsTrim (y : List Char) :
    tokensOf (jsTrim y) = tokensOf y := by
  unfold jsTrim
  rw [tokensOf_trimEnd]
  show tokensOf (y.dropWhile isWS) = _
  rw [tokensOf_dropWhile]

theorem key_invariant (p : List Char) :
    normalizeForComparison (joinNl ((splitNl p).map jsTrim)) =
      normalizeForComparison p := by
  unfold normalizeForComparison
  rw [canon_eq, canon_eq]
  congr 1
  rw [← joinNl_map_jsLower, tokensOf_joinNl, List.map_map, List.map_map]
  have hL : ((splitNl p).map ((tokensOf ∘ List.map jsLower) ∘ jsTrim))
      = (splitNl p).map (tokensOf ∘ List.map jsLower) := by
    apply List.map_congr_left
    intro l hl
    show tokensOf ((jsTrim l).map jsLower) = tokensOf (l.map jsLower)
    rw [← jsTrim_map_jsLower, tokensOf_jsTrim]
  rw [hL]
  have hR : tokensOf (p.map jsLower)
      = ((splitNl (p.map jsLower)).map tokensOf).flatten := by
    conv_lhs => rw [← joinNl_splitNl (p.map jsLower)]
    rw [tokensOf_joinNl]
  rw [hR, splitNl_map_jsLower, List.map_map]


/-! ## Blank-line structure predicates -/

/-- No position of the string starts a `/\n\s*\n/` match: no newline is
followed by a whitespace run containing another newline. -/
def noBlankB : List Char → Bool
  | [] => true
  | c :: cs =>
    if c = '\n' ∧ (cs.takeWhile isWS).contains '\n' then false
    else noBlankB cs

/-- No position of the string starts a `/\n\s*\n\s*\n+/` match: no newline
is followed by a whitespace run containing two more newlines. -/
def noTripleB : List Char → Bool
  | [] => true
  | c :: cs =>
    if c = '\n' ∧ 2 ≤ (cs.takeWhile isWS).count '\n' then false
    else noTripleB cs

theorem noBlankB_cons {c : Char} {cs : List Char} :
    noBlankB (c :: cs) = true ↔
      ¬(c = '\n' ∧ (cs.takeWhile isWS).contains '\n') ∧ noBlankB cs = true := by
  show (if c = '\n' ∧ (cs.takeWhile isWS).contains '\n' then false
    else noBlankB cs) = true ↔ _
  by_cases h : c = '\n' ∧ (cs.takeWhile isWS).contains '\n'
  · rw [if_pos h]
    constructor
    · intro hf
      exact absurd hf (by simp)
    · intro h2
      exact absurd h h2.1
  · rw [if_neg h]
    exact ⟨fun hb => ⟨h, hb⟩, fun h2 => h2.2⟩

theorem noTripleB_cons {c : Char} {cs : List Char} :
    noTripleB (c :: cs) = true ↔
      ¬(c = '\n' ∧ 2 ≤ (cs.takeWhile isWS).count '\n') ∧
        noTripleB cs = true := by
  show (if c = '\n' ∧ 2 ≤ (cs.takeWhile isWS).count '\n' then false
    else noTripleB cs) = true ↔ _
  by_cases h : c = '\n' ∧ 2 ≤ (cs.takeWhile isWS).count '\n'
  · rw [if_pos h]
    constructor
    · intro hf
      exact absurd hf (by simp)
    · intro h2
      exact absurd h h2.1
  · rw [if_neg h]
    exact ⟨fun hb => ⟨h, hb⟩, fun h2 => h2.2⟩

theorem takeWhile_prefix_mono {p : Char → Bool} (a r : List Char) :
    a.takeWhile p <+: (a ++ r).takeWhile p := by
  induction a with
  | nil => exact List.nil_prefix
  | cons c a ih =>
    rw [List.cons_append, List.takeWhile_cons, List.takeWhile_cons]
    cases h : p c
    · exact List.nil_prefix
    · exact (List.prefix_cons_inj c).mpr ih

theorem contains_takeWhile_append {a : List Char} (r : List Char)
    (h : ('\n' : Char) ∈ a.takeWhile isWS) :
    ('\n' : Char) ∈ (a ++ r).takeWhile isWS :=
  (takeWhile_prefix_mono a r).subset h

theorem count_takeWhile_append {a : List Char} (r : List Char) :
    (a.takeWhile isWS).count '\n' ≤ ((a ++ r).takeWhile isWS).count '\n' :=
  (takeWhile_prefix_mono a r).sublist.count_le '\n'

theorem takeWhile_append_all {a : List Char} (x : List Char)
    {p : Char → Bool} (h : ∀ c ∈ a, p c = true) :
    (a ++ x).takeWhile p = a ++ x.takeWhile p := by
  induction a with
  | nil => rfl
  | cons c a ih =>
    rw [List.cons_append, List.takeWhile_cons,
      if_pos (h c (List.mem_cons_self _ _)), List.cons_append]
    rw [ih (fun d hd => h d (List.mem_cons_of_mem _ hd))]

theorem takeWhile_ws_stops {a : List Char} (x : List Char)
    (h : ∃ c ∈ a, isWS c = false) :
    (a ++ x).takeWhile isWS = a.takeWhile isWS := by
  induction a with
  | nil =>
    obtain ⟨c, hc, -⟩ := h
    exact absurd hc (List.not_mem_nil c)
  | cons c a ih =>
    rw [List.cons_append, List.takeWhile_cons, List.takeWhile_cons]
    cases hc : isWS c
    · rfl
    · obtain ⟨d, hd, hdw⟩ := h
      rcases List.mem_cons.mp hd with h1 | h1
      · rw [h1] at hdw
        rw [hdw] at hc
        exact absurd hc (by simp)
      · rw [ih ⟨d, h1, hdw⟩]

theorem noBlankB_append_right {a b : List Char}
    (h : noBlankB (a ++ b) = true) : noBlankB b = true := by
  induction a with
  | nil => exact h
  | cons c a ih =>
    rw [List.cons_append, noBlankB_cons] at h
    exact ih h.2

theorem noBlankB_append_left {a b : List Char}
    (h : noBlankB (a ++ b) = true) : noBlankB a = true := by
  induction a with
  | nil => rfl
  | cons c a ih =>
    rw [List.cons_append, noBlankB_cons] at h
    rw [noBlankB_cons]
    refine ⟨?_, ih h.2⟩
    intro ⟨h1, h2⟩
    exact h.1 ⟨h1, List.elem_iff.mpr
      (contains_takeWhile_append b (List.elem_iff.mp h2))⟩

theorem noBlankB_jsTrim {p : List Char} (h : noBlankB p = true) :
    noBlankB (jsTrim p) = true := by
  obtain ⟨pre, hpre⟩ : ∃ pre, pre ++ trimStart p = p := trimStart_suffix p
  obtain ⟨suf, hsuf⟩ : ∃ suf, jsTrim p ++ suf = trimStart p :=
    trimEnd_pfx (trimStart p)
  rw [← hpre, ← hsuf] at h
  exact noBlankB_append_left (noBlankB_append_right h)

/-! ## `afterLastNl` decomposition and fuel irrelevance -/

theorem afterLastNl_spec {v : List Char} (h : ('\n' : Char) ∈ v) :
    ∃ b, v = b ++ '\n' :: afterLastNl v := by
  have hd : v.reverse.dropWhile (fun c => ¬(c = '\n')) ≠ [] := by
    intro he
    have h3 : ('\n' : Char) ∈ v.reverse.dropWhile (fun c => ¬(c = '\n')) :=
      mem_dropWhile_of_not (List.mem_reverse.mpr h) (by simp)
    rw [he] at h3
    exact List.not_mem_nil _ h3
  cases hdd : v.reverse.dropWhile (fun c => ¬(c = '\n')) with
  | nil => exact absurd hdd hd
  | cons d ds =>
    have hdnl : d = '\n' := by
      have h2 := List.head?_dropWhile_not (fun c => ¬(c = '\n')) v.reverse
      rw [hdd] at h2
      simpa using h2
    have hsplit : v.reverse.takeWhile (fun c => ¬(c = '\n')) ++
        v.reverse.dropWhile (fun c => ¬(c = '\n')) = v.reverse :=
      List.takeWhile_append_dropWhile _ _
    refine ⟨ds.reverse, ?_⟩
    have h4 := congrArg List.reverse hsplit
    rw [List.reverse_append, List.reverse_reverse, hdd, hdnl] at h4
    exact h4.symm.trans (by simp [afterLastNl])

theorem afterLastNl_len {v : List Char} (h : ('\n' : Char) ∈ v) :
    (afterLastNl v).length + 1 ≤ v.length := by
  obtain ⟨b, hb⟩ := afterLastNl_spec h
  have h2 := congrArg List.length hb
  simp at h2
  omega

theorem blankSplitF_fuel_irrel :
    ∀ (n : Nat) (s : List Char) (f1 f2 : Nat), s.length ≤ n →
      s.length ≤ f1 → s.length ≤ f2 →
      blankSplitF f1 s = blankSplitF f2 s := by
  intro n
  induction n with
  | zero =>
    intro s f1 f2 hn _ _
    have hs : s = [] := List.length_eq_zero.mp (Nat.le_zero.mp hn)
    subst hs
    cases f1 <;> cases f2 <;> rfl
  | succ n ih =>
    intro s f1 f2 hn h1 h2
    cases s with
    | nil => cases f1 <;> cases f2 <;> rfl
    | cons c cs =>
      simp only [List.length_cons] at hn h1 h2
      cases f1 with
      | zero => omega
      | succ g1 =>
        cases f2 with
        | zero => omega
        | succ g2 =>
          show (if c = '\n' ∧ (cs.takeWhile isWS).contains '\n' then _
            else _) = (if c = '\n' ∧ (cs.takeWhile isWS).contains '\n'
            then _ else _)
          by_cases hm : c = '\n' ∧ (cs.takeWhile isWS).contains '\n'
          · rw [if_pos hm, if_pos hm]
            have hnl : ('\n' : Char) ∈ cs.takeWhile isWS :=
              List.elem_iff.mp hm.2
            have hlen : (afterLastNl (cs.takeWhile isWS) ++
                cs.dropWhile isWS).length ≤ cs.length := by
              have ha := afterLastNl_len hnl
              have hb : (cs.takeWhile isWS).length +
                  (cs.dropWhile isWS).length = cs.length := by
                rw [← List.length_append, List.takeWhile_append_dropWhile]
              rw [List.length_append]
              omega
            rw [ih _ g1 g2 (by omega) (by omega) (by omega)]
          · rw [if_neg hm, if_neg hm]
            rw [ih cs g1 g2 (by omega) (by omega) (by omega)]

theorem collapseBlankF_id :
    ∀ (n : Nat) (s : List Char) (fuel : Nat), s.length ≤ n →
      noTripleB s = true → s.length ≤ fuel →
      collapseBlankF fuel s = s := by
  intro n
  induction n with
  | zero =>
    intro s fuel hn _ _
    have hs : s = [] := List.length_eq_zero.mp (Nat.le_zero.mp hn)
    subst hs
    cases fuel <;> rfl
  | succ n ih =>
    intro s fuel hn ht hf
    cases s with
    | nil => cases fuel <;> rfl
    | cons c cs =>
      simp only [List.length_cons] at hn hf
      cases fuel with
      | zero => omega
      | succ g =>
        rw [noTripleB_cons] at ht
        show (if c = '\n' ∧ 2 ≤ (cs.takeWhile isWS).count '\n' then _
          else _) = _
        rw [if_neg ht.1, ih cs g (by omega) ht.2 (by omega)]


/-! ## Structure of the paragraph split -/

theorem blankSplitF_main :
    ∀ (fuel : Nat) (u : List Char), u.length ≤ fuel →
      ∃ h t, blankSplitF fuel u = h :: t ∧
        (u = h ∨ ∃ r, u = h ++ '\n' :: r) ∧
        (∀ p ∈ h :: t, noBlankB p = true) ∧
        (∀ p ∈ t, ∀ l ∈ splitNl p, l ∈ (splitNl u).tail) := by
  intro fuel
  induction fuel with
  | zero =>
    intro u hu
    have h0 : u = [] := List.length_eq_zero.mp (Nat.le_zero.mp hu)
    subst h0
    refine ⟨[], [], rfl, Or.inl rfl, ?_, ?_⟩
    · intro p hp
      rcases List.mem_cons.mp hp with h1 | h1
      · rw [h1]; rfl
      · exact absurd h1 (List.not_mem_nil p)
    · intro p hp
      exact absurd hp (List.not_mem_nil p)
  | succ g ih =>
    intro u hu
    cases u with
    | nil =>
      refine ⟨[], [], rfl, Or.inl rfl, ?_, ?_⟩
      · intro p hp
        rcases List.mem_cons.mp hp with h1 | h1
        · rw [h1]; rfl
        · exact absurd h1 (List.not_mem_nil p)
      · intro p hp
        exact absurd hp (List.not_mem_nil p)
    | cons c cs =>
      simp only [List.length_cons] at hu
      have hcs : cs.length ≤ g := by omega
      by_cases hm : c = '\n' ∧ (cs.takeWhile isWS).contains '\n'
      · -- a paragraph-break match fires here
        have hnl : ('\n' : Char) ∈ cs.takeWhile isWS := List.elem_iff.mp hm.2
        obtain ⟨b, hb⟩ := afterLastNl_spec hnl
        have hcseq : cs = b ++ '\n' ::
            (afterLastNl (cs.takeWhile isWS) ++ cs.dropWhile isWS) := by
          have h1 : cs.takeWhile isWS ++ cs.dropWhile isWS = cs :=
            List.takeWhile_append_dropWhile _ _
          calc cs = cs.takeWhile isWS ++ cs.dropWhile isWS := h1.symm
            _ = (b ++ '\n' :: afterLastNl (cs.takeWhile isWS)) ++
                cs.dropWhile isWS := by conv_lhs => rw [hb]
            _ = b ++ '\n' :: (afterLastNl (cs.takeWhile isWS) ++
                cs.dropWhile isWS) := by simp
        have hlen : (afterLastNl (cs.takeWhile isWS) ++
            cs.dropWhile isWS).length ≤ g := by
          have h2 := congrArg List.length hcseq
          simp [List.length_append] at h2
          rw [List.length_append]
          omega
        obtain ⟨h', t', e', bd', nb', tl'⟩ := ih _ hlen
        refine ⟨[], h' :: t', ?_, ?_, ?_, ?_⟩
        · show (if c = '\n' ∧ (cs.takeWhile isWS).contains '\n' then _
            else _) = _
          rw [if_pos hm, e']
        · exact Or.inr ⟨cs, by rw [hm.1]; rfl⟩
        · intro p hp
          rcases List.mem_cons.mp hp with h1 | h1
          · rw [h1]; rfl
          · exact nb' p h1
        · intro p hp l hl
          have hu2 : splitNl (c :: cs) = [] :: splitNl cs := by
            rw [hm.1, splitNl_cons_nl]
          rw [hu2]
          show l ∈ splitNl cs
          rw [hcseq, splitNl_append_nl]
          have hlin : l ∈ splitNl (afterLastNl (cs.takeWhile isWS) ++
              cs.dropWhile isWS) := by
            rcases List.mem_cons.mp hp with h1 | h1
            · subst h1
              rcases bd' with h2 | ⟨r', h2⟩
              · rw [← h2] at hl
                exact hl
              · rw [h2, splitNl_append_nl]
                exact List.mem_append_left _ hl
            · exact List.mem_of_mem_tail (tl' p h1 l hl)
          exact List.mem_append_right _ hlin
      · -- no match at this position
        obtain ⟨h', t', e', bd', nb', tl'⟩ := ih cs hcs
        have hpre : ∃ rest, cs = h' ++ rest := by
          rcases bd' with h2 | ⟨r, h2⟩
          · exact ⟨[], by rw [h2]; simp⟩
          · exact ⟨'\n' :: r, h2⟩
        refine ⟨c :: h', t', ?_, ?_, ?_, ?_⟩
        · show (if c = '\n' ∧ (cs.takeWhile isWS).contains '\n' then _
            else _) = _
          rw [if_neg hm, e']
        · rcases bd' with h2 | ⟨r, h2⟩
          · exact Or.inl (by rw [h2])
          · exact Or.inr ⟨r, by rw [h2]; rfl⟩
        · intro p hp
          rcases List.mem_cons.mp hp with h1 | h1
          · subst h1
            rw [noBlankB_cons]
            refine ⟨?_, nb' h' (List.mem_cons_self _ _)⟩
            intro ⟨hc2, hcont⟩
            obtain ⟨rest, hrest⟩ := hpre
            refine hm ⟨hc2, List.elem_iff.mpr ?_⟩
            rw [hrest]
            exact contains_takeWhile_append rest (List.elem_iff.mp hcont)
          · exact nb' p (List.mem_cons_of_mem _ h1)
        · intro p hp l hl
          have h2 := tl' p hp l hl
          by_cases hc : c = '\n'
          · rw [hc, splitNl_cons_nl]
            exact List.mem_of_mem_tail h2
          · obtain ⟨h0, t0, hsp⟩ : ∃ h0 t0, splitNl cs = h0 :: t0 := by
              cases hx : splitNl cs with
              | nil => exact absurd hx (splitNl_ne_nil cs)
              | cons a bbb => exact ⟨a, bbb, rfl⟩
            rw [splitNl_cons_of_ne hc hsp]
            rw [hsp] at h2
            exact h2


theorem blankSplit_noBlank {u : List Char} :
    ∀ p ∈ blankSplit u, noBlankB p = true := by
  obtain ⟨h, t, e, bd, nb, tl⟩ := blankSplitF_main u.length u le_rfl
  unfold blankSplit
  rw [e]
  exact nb

theorem blankSplit_lines {u : List Char} :
    ∀ p ∈ blankSplit u, ∀ l ∈ splitNl p, l ∈ splitNl u := by
  obtain ⟨h, t, e, bd, nb, tl⟩ := blankSplitF_main u.length u le_rfl
  unfold blankSplit
  rw [e]
  intro p hp l hl
  rcases List.mem_cons.mp hp with h1 | h1
  · subst h1
    rcases bd with h2 | ⟨r, h2⟩
    · rw [h2]
      exact hl
    · rw [h2, splitNl_append_nl]
      exact List.mem_append_left _ hl
  · exact List.mem_of_mem_tail (tl p h1 l hl)

/-! ## Lines of a trimmed, blank-free paragraph are never all-whitespace -/

theorem takeWhile_not_nl_split {cs : List Char} (h : ('\n' : Char) ∈ cs) :
    ∃ rest, cs = cs.takeWhile (fun c => ¬(c = '\n')) ++ '\n' :: rest := by
  have hd : cs.dropWhile (fun c => ¬(c = '\n')) ≠ [] := by
    intro he
    have h3 : ('\n' : Char) ∈ cs.dropWhile (fun c => ¬(c = '\n')) :=
      mem_dropWhile_of_not h (by simp)
    rw [he] at h3
    exact List.not_mem_nil _ h3
  cases hdd : cs.dropWhile (fun c => ¬(c = '\n')) with
  | nil => exact absurd hdd hd
  | cons d ds =>
    have hdnl : d = '\n' := by
      have h2 := List.head?_dropWhile_not (fun c => ¬(c = '\n')) cs
      rw [hdd] at h2
      simpa using h2
    refine ⟨ds, ?_⟩
    have hsplit := List.takeWhile_append_dropWhile
      (fun c => ¬(c = '\n')) cs
    rw [hdd, hdnl] at hsplit
    exact hsplit.symm

theorem tail_lines_not_ws :
    ∀ (n : Nat) (q : List Char), q.length ≤ n → noBlankB q = true →
      trimEnd q = q → ∀ l ∈ (splitNl q).tail, jsTrim l ≠ [] := by
  intro n
  induction n with
  | zero =>
    intro q hn _ _ l hl
    have h0 : q = [] := List.length_eq_zero.mp (Nat.le_zero.mp hn)
    subst h0
    exact absurd hl (List.not_mem_nil l)
  | succ n ih =>
    intro q hn hb ht l hl
    cases q with
    | nil => exact absurd hl (List.not_mem_nil l)
    | cons c cs =>
      simp only [List.length_cons] at hn
      have hn' : cs.length ≤ n := by omega
      rw [noBlankB_cons] at hb
      rw [trimEnd_cons] at ht
      by_cases hz : trimEnd cs = []
      · rw [if_pos hz] at ht
        cases hwc : isWS c
        · rw [if_neg (by simp [hwc])] at ht
          have hcs0 : cs = [] := by
            have := congrArg List.tail ht
            simpa using this.symm
          subst hcs0
          have hcnl : ¬c = '\n' := by
            intro hcn
            rw [hcn] at hwc
            exact absurd hwc (by decide)
          rw [splitNl_of_no_nl (by
            intro hm
            rw [List.mem_singleton] at hm
            exact hcnl hm.symm)] at hl
          exact absurd hl (List.not_mem_nil l)
        · rw [if_pos (by simp [hwc])] at ht
          exact absurd ht.symm (List.cons_ne_nil c cs)
      · rw [if_neg hz] at ht
        have hte : trimEnd cs = cs := by
          have := congrArg List.tail ht
          simpa using this
        by_cases hc : c = '\n'
        · subst hc
          rw [splitNl_cons_nl] at hl
          show jsTrim l ≠ []
          obtain ⟨thead, hsh⟩ := splitNl_head_takeWhile cs
          rw [hsh] at hl
          rcases List.mem_cons.mp hl with h1 | h1
          · subst h1
            intro hjt
            have hws : ∀ d ∈ cs.takeWhile (fun c => ¬(c = '\n')),
                isWS d = true := jsTrim_eq_nil_iff.mp hjt
            by_cases hnn : ('\n' : Char) ∈ cs
            · obtain ⟨rest, hrest⟩ := takeWhile_not_nl_split hnn
              have hmem : ('\n' : Char) ∈ cs.takeWhile isWS := by
                have hh : cs.takeWhile isWS =
                    cs.takeWhile (fun c => ¬(c = '\n')) ++
                      ('\n' :: rest).takeWhile isWS := by
                  conv_lhs => rw [hrest]
                  exact takeWhile_append_all _ hws
                rw [hh]
                refine List.mem_append_right _ ?_
                rw [List.takeWhile_cons, if_pos (by decide)]
                exact List.mem_cons_self _ _
              exact hb.1 ⟨rfl, List.elem_iff.mpr hmem⟩
            · have htake : splitNl cs = [cs] := splitNl_of_no_nl hnn
              rw [htake] at hsh
              have hcseq : cs.takeWhile (fun c => ¬(c = '\n')) = cs := by
                have := congrArg (fun x => x.headI) hsh
                simpa using this.symm
              rw [hcseq] at hws
              have hnil : trimEnd cs = [] := trimEnd_eq_nil_iff.mpr hws
              rw [hte] at hnil
              subst hnil
              exact hz rfl
          · exact ih cs hn' hb.2 hte l (by rw [hsh]; exact h1)
        · obtain ⟨h0, t0, hsp⟩ := exists_cons_splitNl cs
          rw [splitNl_cons_of_ne hc hsp] at hl
          refine ih cs hn' hb.2 hte l ?_
          rw [hsp]
          exact hl

theorem lines_nonblank {q : List Char} (hq : q ≠ []) (hfix : jsTrim q = q)
    (hnb : noBlankB q = true) : ∀ l ∈ splitNl q, jsTrim l ≠ [] := by
  have hts : trimStart q = q := by
    have l1 : (jsTrim q).length ≤ (trimStart q).length :=
      (trimEnd_pfx (trimStart q)).length_le
    have l2 : (trimStart q).length ≤ q.length :=
      (trimStart_suffix q).length_le
    rw [hfix] at l1
    exact (trimStart_suffix q).eq_of_length (by omega)
  have hte : trimEnd q = q := by
    have : trimEnd (trimStart q) = q := hfix
    rw [hts] at this
    exact this
  intro l hl
  obtain ⟨thead, hsh⟩ := splitNl_head_takeWhile q
  rw [hsh] at hl
  rcases List.mem_cons.mp hl with h1 | h1
  · subst h1
    cases q with
    | nil => exact absurd rfl hq
    | cons c cs =>
      have hcw : isWS c = false := trimStart_head_not_ws hts
      have hcnl : ¬(c = '\n') := by
        intro h2
        rw [h2] at hcw
        exact absurd hcw (by decide)
      have hcm : c ∈ (c :: cs).takeWhile (fun c => ¬(c = '\n')) := by
        rw [List.takeWhile_cons, if_pos (by simpa using hcnl)]
        exact List.mem_cons_self _ _
      exact jsTrim_ne_nil_of_mem hcm hcw
  · exact tail_lines_not_ws q.length q le_rfl hnb hte l
      (by rw [hsh]; exact h1)


/-! ## Joining good paragraphs back together -/

/-- A paragraph as kept by the deduplicator: nonempty, trimmed, and free of
internal blank-line separators. -/
def GoodPara (q : List Char) : Prop :=
  q ≠ [] ∧ jsTrim q = q ∧ noBlankB q = true

theorem joinBlank_single (p : List Char) : joinBlank [p] = p := by
  simp [joinBlank, List.intercalate]

theorem joinBlank_cons (p : List Char) (ps : List (List Char))
    (h : ps ≠ []) : joinBlank (p :: ps) = p ++ '\n' :: '\n' :: joinBlank ps := by
  cases ps with
  | nil => exact absurd rfl h
  | cons a b =>
    show (List.intersperse ['\n', '\n'] (p :: a :: b)).flatten = _
    rw [List.intersperse_cons₂]
    show p ++ (['\n', '\n'] ++
      (List.intersperse ['\n', '\n'] (a :: b)).flatten) = _
    rfl

theorem jsTrim_fix_parts {q : List Char} (hfix : jsTrim q = q) :
    trimStart q = q ∧ trimEnd q = q := by
  have hts : trimStart q = q := by
    have l1 : (jsTrim q).length ≤ (trimStart q).length :=
      (trimEnd_pfx (trimStart q)).length_le
    have l2 : (trimStart q).length ≤ q.length :=
      (trimStart_suffix q).length_le
    rw [hfix] at l1
    exact (trimStart_suffix q).eq_of_length (by omega)
  refine ⟨hts, ?_⟩
  have h2 : trimEnd (trimStart q) = q := hfix
  rw [hts] at h2
  exact h2

theorem good_head_nw {q : List Char} (hg : GoodPara q) :
    ∀ c, q.head? = some c → isWS c = false := by
  intro c hc
  have hts := (jsTrim_fix_parts hg.2.1).1
  cases q with
  | nil => simp at hc
  | cons d ds =>
    have hd : d = c := by simpa using hc
    subst hd
    exact trimStart_head_not_ws hts

theorem good_last_nw {q : List Char} (hg : GoodPara q) :
    ∀ c, q.getLast? = some c → isWS c = false := by
  intro c hc
  have hte := (jsTrim_fix_parts hg.2.1).2
  have hrev : trimStart q.reverse = q.reverse := by
    have h2 : (trimStart q.reverse).reverse = q := hte
    have := congrArg List.reverse h2
    simpa using this
  have hhead : q.reverse.head? = some c := by
    rw [List.head?_reverse]
    exact hc
  cases hq : q.reverse with
  | nil =>
    rw [hq] at hhead
    simp at hhead
  | cons d ds =>
    rw [hq] at hhead hrev
    have hd : d = c := by simpa using hhead
    subst hd
    exact trimStart_head_not_ws hrev

theorem headq_append {a : List Char} (b : List Char) {c : Char}
    (h : a.head? = some c) : (a ++ b).head? = some c := by
  rw [List.head?_append, h]
  rfl

theorem lastq_append (a : List Char) {b : List Char} {c : Char}
    (h : b.getLast? = some c) : (a ++ b).getLast? = some c := by
  rw [List.getLast?_append, h]
  rfl

theorem exists_head_of_ne_nil {α : Type _} {a : List α} (h : a ≠ []) :
    ∃ c, a.head? = some c := by
  cases a with
  | nil => exact absurd rfl h
  | cons d ds => exact ⟨d, rfl⟩

theorem exists_last_of_ne_nil {α : Type _} {a : List α} (h : a ≠ []) :
    ∃ c, a.getLast? = some c := by
  cases hl : a.getLast? with
  | none => exact absurd (List.getLast?_eq_none_iff.mp hl) h
  | some c => exact ⟨c, rfl⟩

theorem takeWhile_ws_nil_of_head {x : List Char} {c : Char}
    (hh : x.head? = some c) (hw : isWS c = false) :
    x.takeWhile isWS = [] := by
  cases x with
  | nil => rfl
  | cons d ds =>
    have hd : d = c := by simpa using hh
    subst hd
    rw [List.takeWhile_cons, if_neg (by simp [hw])]

theorem noTripleB_append {p : List Char} (x : List Char)
    (hb : noBlankB p = true)
    (hl : ∀ c, p.getLast? = some c → isWS c = false)
    (hx : noTripleB x = true) : noTripleB (p ++ x) = true := by
  induction p with
  | nil => exact hx
  | cons c p' ih =>
    rw [List.cons_append, noTripleB_cons]
    rw [noBlankB_cons] at hb
    constructor
    · intro ⟨hc, hcnt⟩
      cases p' with
      | nil =>
        have := hl c (by rfl)
        rw [hc] at this
        exact absurd this (by decide)
      | cons d p'' =>
        obtain ⟨e, he⟩ := exists_last_of_ne_nil
          (show (d :: p'') ≠ [] by simp)
        have hew : isWS e = false := by
          refine hl e ?_
          rw [List.getLast?_cons_cons]
          exact he
        have hstop : ((d :: p'') ++ x).takeWhile isWS =
            (d :: p'').takeWhile isWS := by
          refine takeWhile_ws_stops x ⟨e, ?_, hew⟩
          exact List.mem_of_mem_getLast? he
        rw [hstop] at hcnt
        have hnz : ('\n' : Char) ∉ (d :: p'').takeWhile isWS := by
          intro hmem
          exact hb.1 ⟨hc, List.elem_iff.mpr hmem⟩
        rw [List.count_eq_zero.mpr hnz] at hcnt
        omega
    · refine ih hb.2 ?_
      intro e he
      refine hl e ?_
      cases p' with
      | nil => simp at he
      | cons d p'' =>
        rw [List.getLast?_cons_cons]
        exact he

theorem noTripleB_sep {J : List Char} (hJ : J ≠ [])
    (hh : ∀ c, J.head? = some c → isWS c = false)
    (ht : noTripleB J = true) :
    noTripleB ('\n' :: '\n' :: J) = true := by
  obtain ⟨c, hc⟩ := exists_head_of_ne_nil hJ
  have hnil : J.takeWhile isWS = [] := takeWhile_ws_nil_of_head hc (hh c hc)
  rw [noTripleB_cons, noTripleB_cons]
  refine ⟨?_, ?_, ht⟩
  · rintro ⟨-, hcnt⟩
    rw [List.takeWhile_cons, if_pos (by decide), hnil] at hcnt
    simp at hcnt
  · rintro ⟨-, hcnt⟩
    rw [hnil] at hcnt
    simp at hcnt

theorem noTripleB_joinBlank : ∀ (ps : List (List Char)),
    (∀ q ∈ ps, GoodPara q) → noTripleB (joinBlank ps) = true := by
  intro ps
  induction ps with
  | nil => intro _; rfl
  | cons q qs ih =>
    intro hg
    have hq := hg q (List.mem_cons_self _ _)
    cases qs with
    | nil =>
      rw [joinBlank_single]
      have h2 := noTripleB_append [] hq.2.2 (good_last_nw hq) rfl
      simpa using h2
    | cons q2 rest =>
      rw [joinBlank_cons _ _ (by simp)]
      refine noTripleB_append _ hq.2.2 (good_last_nw hq) ?_
      have hq2 := hg q2 (List.mem_cons_of_mem _ (List.mem_cons_self _ _))
      have hJne : joinBlank (q2 :: rest) ≠ [] := by
        obtain ⟨c, hc⟩ := exists_head_of_ne_nil hq2.1
        cases rest with
        | nil =>
          rw [joinBlank_single]
          exact hq2.1
        | cons r rs =>
          rw [joinBlank_cons _ _ (by simp)]
          intro he
          simpa [hq2.1] using congrArg List.isEmpty he
      have hJh : ∀ c, (joinBlank (q2 :: rest)).head? = some c →
          isWS c = false := by
        intro c hc
        have hjh : (joinBlank (q2 :: rest)).head? = q2.head? := by
          cases rest with
          | nil => rw [joinBlank_single]
          | cons r rs =>
            rw [joinBlank_cons _ _ (by simp), List.head?_append]
            obtain ⟨d, hd⟩ := exists_head_of_ne_nil hq2.1
            rw [hd]
            rfl
        rw [hjh] at hc
        exact good_head_nw hq2 c hc
      exact noTripleB_sep hJne hJh
        (ih (fun r hr => hg r (List.mem_cons_of_mem _ hr)))


theorem blankSplitF_single : ∀ (fuel : Nat) (p : List Char),
    p.length ≤ fuel → noBlankB p = true → blankSplitF fuel p = [p] := by
  intro fuel
  induction fuel with
  | zero =>
    intro p hf _
    have h0 : p = [] := List.length_eq_zero.mp (Nat.le_zero.mp hf)
    subst h0
    rfl
  | succ g ih =>
    intro p hf hb
    cases p with
    | nil => rfl
    | cons c cs =>
      simp only [List.length_cons] at hf
      rw [noBlankB_cons] at hb
      show (if c = '\n' ∧ (cs.takeWhile isWS).contains '\n' then _
        else _) = _
      rw [if_neg hb.1, ih cs (by omega) hb.2]

theorem afterLastNl_single_nl : afterLastNl ['\n'] = [] := rfl

theorem blankSplitF_sep :
    ∀ (p : List Char), noBlankB p = true →
      (∀ c, p.getLast? = some c → isWS c = false) →
      ∀ (J : List Char) (fuel : Nat),
        (p ++ '\n' :: '\n' :: J).length ≤ fuel → J ≠ [] →
        (∀ c, J.head? = some c → isWS c = false) →
        blankSplitF fuel (p ++ '\n' :: '\n' :: J) =
          p :: blankSplitF J.length J := by
  intro p
  induction p with
  | nil =>
    intro _ _ J fuel hf hJ hh
    obtain ⟨c, hc⟩ := exists_head_of_ne_nil hJ
    have hnil : J.takeWhile isWS = [] := takeWhile_ws_nil_of_head hc (hh c hc)
    rw [List.nil_append]
    simp only [List.nil_append, List.length_cons] at hf
    cases fuel with
    | zero => omega
    | succ g =>
      have hrun : ('\n' :: J).takeWhile isWS = ['\n'] := by
        rw [List.takeWhile_cons, if_pos (by decide), hnil]
      show (if ('\n' : Char) = '\n' ∧
        (('\n' :: J).takeWhile isWS).contains '\n' then _ else _) = _
      rw [if_pos ⟨rfl, by rw [hrun]; rfl⟩, hrun, afterLastNl_single_nl]
      have hdrop : ('\n' :: J).dropWhile isWS = J := by
        rw [List.dropWhile_cons, if_pos (by decide)]
        cases J with
        | nil => rfl
        | cons d ds =>
          have hd : d = c := by simpa using hc
          subst hd
          rw [List.dropWhile_cons, if_neg (by simp [hh d rfl])]
      rw [hdrop, List.nil_append]
      rw [blankSplitF_fuel_irrel J.length J g J.length le_rfl
        (by omega) le_rfl]
  | cons c p' ih =>
    intro hb hl J fuel hf hJ hh
    rw [noBlankB_cons] at hb
    rw [List.cons_append]
    simp only [List.length_cons, List.length_append] at hf
    cases fuel with
    | zero => omega
    | succ g =>
      show (if c = '\n' ∧
        ((p' ++ '\n' :: '\n' :: J).takeWhile isWS).contains '\n'
        then _ else _) = _
      have hnm : ¬(c = '\n' ∧
          ((p' ++ '\n' :: '\n' :: J).takeWhile isWS).contains '\n') := by
        rintro ⟨hc, hcont⟩
        cases p' with
        | nil =>
          have := hl c (by rfl)
          rw [hc] at this
          exact absurd this (by decide)
        | cons d p'' =>
          obtain ⟨e, he⟩ := exists_last_of_ne_nil
            (show (d :: p'') ≠ [] by simp)
          have hew : isWS e = false := by
            refine hl e ?_
            rw [List.getLast?_cons_cons]
            exact he
          have hstop : ((d :: p'') ++ '\n' :: '\n' :: J).takeWhile isWS =
              (d :: p'').takeWhile isWS :=
            takeWhile_ws_stops _ ⟨e, List.mem_of_mem_getLast? he, hew⟩
          rw [hstop] at hcont
          exact hb.1 ⟨hc, hcont⟩
      rw [if_neg hnm]
      have hrec := ih hb.2 (by
        intro e he
        refine hl e ?_
        cases p' with
        | nil => simp at he
        | cons d p'' =>
          rw [List.getLast?_cons_cons]
          exact he) J g (by simp; omega) hJ hh
      rw [hrec]

theorem joinBlank_ne_nil {ps : List (List Char)} (hne : ps ≠ [])
    (hg : ∀ q ∈ ps, GoodPara q) : joinBlank ps ≠ [] := by
  cases ps with
  | nil => exact absurd rfl hne
  | cons q qs =>
    have hq := (hg q (List.mem_cons_self _ _)).1
    cases qs with
    | nil =>
      rw [joinBlank_single]
      exact hq
    | cons r rs =>
      rw [joinBlank_cons _ _ (by simp)]
      intro he
      simpa [hq] using congrArg List.isEmpty he

theorem joinBlank_head? {ps : List (List Char)} {q : List Char}
    {qs : List (List Char)} (he : ps = q :: qs) (hq : q ≠ []) :
    (joinBlank ps).head? = q.head? := by
  subst he
  cases qs with
  | nil => rw [joinBlank_single]
  | cons r rs =>
    rw [joinBlank_cons _ _ (by simp), List.head?_append]
    obtain ⟨d, hd⟩ := exists_head_of_ne_nil hq
    rw [hd]
    rfl

theorem blankSplit_joinBlank : ∀ (ps : List (List Char)), ps ≠ [] →
    (∀ q ∈ ps, GoodPara q) → blankSplit (joinBlank ps) = ps := by
  intro ps
  induction ps with
  | nil => intro h _; exact absurd rfl h
  | cons q qs ih =>
    intro _ hg
    have hq := hg q (List.mem_cons_self _ _)
    cases qs with
    | nil =>
      rw [joinBlank_single]
      exact blankSplitF_single q.length q le_rfl hq.2.2
    | cons q2 rest =>
      have hgs : ∀ r ∈ q2 :: rest, GoodPara r :=
        fun r hr => hg r (List.mem_cons_of_mem _ hr)
      have hJne : joinBlank (q2 :: rest) ≠ [] :=
        joinBlank_ne_nil (by simp) hgs
      have hJh : ∀ c, (joinBlank (q2 :: rest)).head? = some c →
          isWS c = false := by
        intro c hc
        rw [joinBlank_head? rfl (hgs q2 (List.mem_cons_self _ _)).1] at hc
        exact good_head_nw (hgs q2 (List.mem_cons_self _ _)) c hc
      rw [joinBlank_cons _ _ (by simp)]
      unfold blankSplit
      rw [blankSplitF_sep q hq.2.2 (good_last_nw hq) _ _ le_rfl hJne hJh]
      have ihr := ih (by simp) hgs
      unfold blankSplit at ihr
      rw [ihr]

/-! ## noBlank structure of line-joined trimmed text -/

theorem noBlankB_of_no_nl {a : List Char} (h : ('\n' : Char) ∉ a) :
    noBlankB a = true := by
  induction a with
  | nil => rfl
  | cons c cs ih =>
    rw [noBlankB_cons]
    refine ⟨?_, ih (fun hm => h (List.mem_cons_of_mem _ hm))⟩
    rintro ⟨hc, -⟩
    exact h (by rw [hc]; exact List.mem_cons_self _ _)

theorem noBlankB_append_nonl {a x : List Char} (h : ('\n' : Char) ∉ a)
    (hx : noBlankB x = true) : noBlankB (a ++ x) = true := by
  induction a with
  | nil => exact hx
  | cons c cs ih =>
    rw [List.cons_append, noBlankB_cons]
    refine ⟨?_, ih (fun hm => h (List.mem_cons_of_mem _ hm))⟩
    rintro ⟨hc, -⟩
    exact h (by rw [hc]; exact List.mem_cons_self _ _)

theorem noBlankB_joinNl : ∀ (ls : List (List Char)),
    (∀ l ∈ ls, ('\n' : Char) ∉ l) →
    (∀ l ∈ ls, l ≠ [] ∧ jsTrim l = l) →
    noBlankB (joinNl ls) = true := by
  intro ls
  induction ls with
  | nil => intro _ _; rfl
  | cons a bs ih =>
    intro hnl hfix
    cases bs with
    | nil =>
      rw [joinNl_single]
      exact noBlankB_of_no_nl (hnl a (List.mem_cons_self _ _))
    | cons b rest =>
      rw [joinNl_cons _ _ (by simp)]
      refine noBlankB_append_nonl (hnl a (List.mem_cons_self _ _)) ?_
      rw [noBlankB_cons]
      have hb := hfix b (List.mem_cons_of_mem _ (List.mem_cons_self _ _))
      have hjh : (joinNl (b :: rest)).head? = b.head? := by
        cases rest with
        | nil => rw [joinNl_single]
        | cons r rs =>
          rw [joinNl_cons _ _ (by simp), List.head?_append]
          obtain ⟨d, hd⟩ := exists_head_of_ne_nil hb.1
          rw [hd]
          rfl
      obtain ⟨d, hd⟩ := exists_head_of_ne_nil hb.1
      have hdw : isWS d = false :=
        good_head_nw ⟨hb.1, hb.2, noBlankB_of_no_nl
          (hnl b (List.mem_cons_of_mem _ (List.mem_cons_self _ _)))⟩ d hd
      refine ⟨?_, ih (fun l hl => hnl l (List.mem_cons_of_mem _ hl))
        (fun l hl => hfix l (List.mem_cons_of_mem _ hl))⟩
      rintro ⟨-, hcont⟩
      rw [takeWhile_ws_nil_of_head (by rw [hjh]; exact hd) hdw] at hcont
      simp at hcont


/-! ## Stage 4 on a joined list of good paragraphs -/

/-- Trimming every line of a paragraph (the per-line `trim` of stage 4). -/
def lineTrim (q : List Char) : List Char := joinNl ((splitNl q).map jsTrim)

theorem joinNl_append {A B : List (List Char)} (hA : A ≠ []) (hB : B ≠ []) :
    joinNl (A ++ B) = joinNl A ++ '\n' :: joinNl B := by
  induction A with
  | nil => exact absurd rfl hA
  | cons a A' ih =>
    cases A' with
    | nil =>
      rw [List.cons_append, List.nil_append, joinNl_cons _ _ hB,
        joinNl_single]
    | cons a2 A'' =>
      rw [List.cons_append, joinNl_cons _ _ (by simp),
        joinNl_cons _ _ (by simp), ih (by simp)]
      simp

theorem jsTrim_subset {l : List Char} : ∀ c ∈ jsTrim l, c ∈ l :=
  fun _ hc =>
    (trimStart_suffix l).subset ((trimEnd_pfx (trimStart l)).subset hc)

theorem splitNl_lineTrim (q : List Char) :
    splitNl (lineTrim q) = (splitNl q).map jsTrim := by
  unfold lineTrim
  refine splitNl_joinNl _ (by simp [splitNl_ne_nil q]) ?_
  intro l hl
  obtain ⟨l0, hl0, he⟩ := List.mem_map.mp hl
  subst he
  intro hm
  exact splitNl_no_nl q l0 hl0 (jsTrim_subset '\n' hm)

theorem joinNl_head? {ls : List (List Char)} {x : List Char}
    {xs : List (List Char)} (he : ls = x :: xs) (hx : x ≠ []) :
    (joinNl ls).head? = x.head? := by
  subst he
  cases xs with
  | nil => rw [joinNl_single]
  | cons r rs =>
    rw [joinNl_cons _ _ (by simp), List.head?_append]
    obtain ⟨d, hd⟩ := exists_head_of_ne_nil hx
    rw [hd]
    rfl

theorem joinNl_ne_nil {ls : List (List Char)} {x : List Char}
    {xs : List (List Char)} (he : ls = x :: xs) (hx : x ≠ []) :
    joinNl ls ≠ [] := by
  intro h0
  have h1 := joinNl_head? he hx
  rw [h0] at h1
  obtain ⟨d, hd⟩ := exists_head_of_ne_nil hx
  rw [hd] at h1
  simp at h1

theorem joinNl_getLast? : ∀ (ls : List (List Char)) (w : List Char),
    (∀ l ∈ ls, l ≠ []) → ls.getLast? = some w →
    (joinNl ls).getLast? = w.getLast? := by
  intro ls
  induction ls with
  | nil =>
    intro w _ hw
    simp at hw
  | cons a bs ih =>
    intro w hne hw
    cases bs with
    | nil =>
      have ha : a = w := by simpa using hw
      subst ha
      rw [joinNl_single]
    | cons b rest =>
      rw [List.getLast?_cons_cons] at hw
      have hwne : w ≠ [] := hne w (List.mem_cons_of_mem _
        (List.mem_of_mem_getLast? hw))
      have hbw := ih w (fun l hl => hne l (List.mem_cons_of_mem _ hl)) hw
      obtain ⟨e, hew⟩ := exists_last_of_ne_nil hwne
      rw [joinNl_cons _ _ (by simp), List.getLast?_append]
      cases hj : joinNl (b :: rest) with
      | nil =>
        rw [hj, hew] at hbw
        simp at hbw
      | cons f fs =>
        rw [hj] at hbw
        rw [show ('\n' :: f :: fs).getLast? = (f :: fs).getLast? from
          List.getLast?_cons_cons, hbw, hew]
        rfl

theorem joinBlank_getLast? : ∀ (ps : List (List Char)) (w : List Char),
    (∀ p ∈ ps, p ≠ []) → ps.getLast? = some w →
    (joinBlank ps).getLast? = w.getLast? := by
  intro ps
  induction ps with
  | nil =>
    intro w _ hw
    simp at hw
  | cons a bs ih =>
    intro w hne hw
    cases bs with
    | nil =>
      have ha : a = w := by simpa using hw
      subst ha
      rw [joinBlank_single]
    | cons b rest =>
      rw [List.getLast?_cons_cons] at hw
      have hwne : w ≠ [] := hne w (List.mem_cons_of_mem _
        (List.mem_of_mem_getLast? hw))
      have hbw := ih w (fun l hl => hne l (List.mem_cons_of_mem _ hl)) hw
      obtain ⟨e, hew⟩ := exists_last_of_ne_nil hwne
      rw [joinBlank_cons _ _ (by simp), List.getLast?_append]
      cases hj : joinBlank (b :: rest) with
      | nil =>
        rw [hj, hew] at hbw
        simp at hbw
      | cons f fs =>
        rw [hj] at hbw
        rw [show ('\n' :: '\n' :: f :: fs).getLast? =
            (f :: fs).getLast? by
          rw [List.getLast?_cons_cons, List.getLast?_cons_cons],
          hbw, hew]
        rfl


theorem lineTrim_lines_facts {q : List Char} (hg : GoodPara q) :
    (∀ l ∈ (splitNl q).map jsTrim,
      ('\n' : Char) ∉ l ∧ l ≠ [] ∧ jsTrim l = l) := by
  intro l hl
  obtain ⟨l0, hl0, he⟩ := List.mem_map.mp hl
  subst he
  refine ⟨fun hm => splitNl_no_nl q l0 hl0 (jsTrim_subset '\n' hm), ?_,
    jsTrim_idem l0⟩
  exact lines_nonblank hg.1 hg.2.1 hg.2.2 l0 hl0

theorem lineTrim_good {q : List Char} (hg : GoodPara q) :
    GoodPara (lineTrim q) := by
  have hfacts := lineTrim_lines_facts hg
  obtain ⟨h0, t0, hsp⟩ := exists_cons_splitNl q
  have hmap : (splitNl q).map jsTrim = jsTrim h0 :: t0.map jsTrim := by
    rw [hsp, List.map_cons]
  have hh0 : jsTrim h0 ≠ [] :=
    (hfacts (jsTrim h0) (by rw [hmap]; exact List.mem_cons_self _ _)).2.1
  have hne : lineTrim q ≠ [] := joinNl_ne_nil hmap hh0
  refine ⟨hne, ?_, ?_⟩
  · -- the per-line-trimmed paragraph is itself trimmed
    refine jsTrim_eq_self_of ?_ ?_
    · intro c hc
      rw [show lineTrim q = joinNl ((splitNl q).map jsTrim) from rfl,
        joinNl_head? hmap hh0] at hc
      cases hx : jsTrim h0 with
      | nil => exact absurd hx hh0
      | cons d ds =>
        rw [hx] at hc
        have hdc : d = c := by simpa using hc
        subst hdc
        exact jsTrim_head_not_ws hx
    · intro c hc
      obtain ⟨w, hw⟩ : ∃ w, ((splitNl q).map jsTrim).getLast? = some w := by
        rw [hmap]
        exact exists_last_of_ne_nil (by simp)
      have hwm : w ∈ (splitNl q).map jsTrim := List.mem_of_mem_getLast? hw
      have hwne : w ≠ [] := (hfacts w hwm).2.1
      rw [show lineTrim q = joinNl ((splitNl q).map jsTrim) from rfl,
        joinNl_getLast? ((splitNl q).map jsTrim) w
          (fun l hl => (hfacts l hl).2.1) hw] at hc
      obtain ⟨l0, hl0, hel⟩ := List.mem_map.mp hwm
      rw [← hel] at hc
      exact jsTrim_last_not_ws hc
  · exact noBlankB_joinNl _ (fun l hl => (hfacts l hl).1)
      (fun l hl => ⟨(hfacts l hl).2.1, (hfacts l hl).2.2⟩)

theorem lineTrim_key {q : List Char} :
    normalizeForComparison (lineTrim q) = normalizeForComparison q :=
  key_invariant q

theorem joinNl_trim_joinBlank : ∀ (ps : List (List Char)), ps ≠ [] →
    joinNl ((splitNl (joinBlank ps)).map jsTrim) =
      joinBlank (ps.map lineTrim) := by
  intro ps
  induction ps with
  | nil => intro h; exact absurd rfl h
  | cons q qs ih =>
    intro _
    cases qs with
    | nil =>
      rw [joinBlank_single, List.map_cons, List.map_nil, joinBlank_single]
      rfl
    | cons q2 rest =>
      rw [joinBlank_cons _ _ (by simp)]
      rw [show q ++ '\n' :: '\n' :: joinBlank (q2 :: rest) =
        q ++ '\n' :: ('\n' :: joinBlank (q2 :: rest)) from rfl]
      rw [splitNl_append_nl, splitNl_cons_nl, List.map_append,
        List.map_cons]
      rw [joinNl_append (by simp [splitNl_ne_nil q]) (by simp)]
      rw [joinNl_cons _ _ (by simp [splitNl_ne_nil]), show jsTrim [] = []
        from rfl, List.nil_append]
      rw [ih (by simp)]
      conv_rhs => rw [List.map_cons, joinBlank_cons _ _ (by simp)]
      rfl

theorem normalizeWhitespace_joinBlank {ps : List (List Char)}
    (hne : ps ≠ []) (hg : ∀ q ∈ ps, GoodPara q) :
    normalizeWhitespace (joinBlank ps) = joinBlank (ps.map lineTrim) := by
  unfold normalizeWhitespace
  rw [show collapseBlank (joinBlank ps) = joinBlank ps from
    collapseBlankF_id (joinBlank ps).length _ _ le_rfl
      (noTripleB_joinBlank ps hg) le_rfl]
  rw [joinNl_trim_joinBlank ps hne]
  obtain ⟨q1, qs, hq1⟩ : ∃ q1 qs, ps = q1 :: qs := by
    cases ps with
    | nil => exact absurd rfl hne
    | cons a b => exact ⟨a, b, rfl⟩
  have hgood : ∀ r ∈ ps.map lineTrim, GoodPara r := by
    intro r hr
    obtain ⟨q, hq, he⟩ := List.mem_map.mp hr
    subst he
    exact lineTrim_good (hg q hq)
  refine jsTrim_eq_self_of ?_ ?_
  · intro c hc
    have hmap : ps.map lineTrim = lineTrim q1 :: qs.map lineTrim := by
      rw [hq1, List.map_cons]
    have hg1 : GoodPara (lineTrim q1) :=
      hgood _ (by rw [hmap]; exact List.mem_cons_self _ _)
    rw [joinBlank_head? hmap hg1.1] at hc
    exact good_head_nw hg1 c hc
  · intro c hc
    obtain ⟨w, hw⟩ : ∃ w, (ps.map lineTrim).getLast? = some w := by
      refine exists_last_of_ne_nil ?_
      rw [hq1, List.map_cons]
      simp
    have hwm : w ∈ ps.map lineTrim := List.mem_of_mem_getLast? hw
    rw [joinBlank_getLast? _ w (fun p hp => (hgood p hp).1) hw] at hc
    exact good_last_nw (hgood w hwm) c hc


/-! ## The deduplication loop invariant -/

/-- Every line of `q` is, up to trimming, a line of `s0`. -/
def LineOK (s0 q : List Char) : Prop :=
  ∀ l ∈ splitNl q, ∃ l0 ∈ splitNl s0, jsTrim l = jsTrim l0

/-- The invariant maintained by the deduplication loop over the state:
keys are distinct, `kept` is the (unordered) value list of `seen`, keys
are the normalization of their values, and every kept paragraph is good
and made of (trimmed) lines of the stage-2 output `s0`. -/
structure DInv (s0 : List Char) (st : DState) : Prop where
  nodup : (st.seen.map Prod.fst).Nodup
  perm : st.kept.Perm (st.seen.map Prod.snd)
  keyfn : ∀ kv ∈ st.seen, kv.1 = normalizeForComparison kv.2
  good : ∀ q ∈ st.kept, GoodPara q
  lineok : ∀ q ∈ st.kept, LineOK s0 q

theorem set_indexOf_decomp {α : Type _} [BEq α] [LawfulBEq α] (b : α)
    {a : α} {l : List α} (h : a ∈ l) :
    ∃ C D, l = C ++ a :: D ∧ l.set (l.indexOf a) b = C ++ b :: D := by
  induction l with
  | nil => exact absurd h (List.not_mem_nil a)
  | cons x xs ih =>
    by_cases hxa : (x == a) = true
    · have hx : x = a := eq_of_beq hxa
      subst hx
      refine ⟨[], xs, rfl, ?_⟩
      rw [List.indexOf_cons]
      simp only [hxa, Bool.cond_true]
      rfl
    · have hxa' : (x == a) = false := by
        cases h2 : (x == a)
        · rfl
        · exact absurd h2 hxa
      have hmem : a ∈ xs := by
        rcases List.mem_cons.mp h with h1 | h1
        · exfalso
          rw [h1] at hxa'
          simp at hxa'
        · exact h1
      obtain ⟨C, D, hCD, hset⟩ := ih hmem
      refine ⟨x :: C, D, by rw [hCD]; rfl, ?_⟩
      rw [List.indexOf_cons]
      simp only [hxa', Bool.cond_false]
      show x :: xs.set (xs.indexOf a) b = (x :: C) ++ b :: D
      rw [hset]
      rfl

theorem dedupStep_inv {s0 : List Char} {st : DState} {para : List Char}
    (hinv : DInv s0 st) (hnb : noBlankB para = true)
    (hlines : ∀ l ∈ splitNl para, l ∈ splitNl s0) :
    DInv s0 (dedupStep st para) := by
  by_cases hemp : (jsTrim para).isEmpty = true
  · unfold dedupStep
    rw [if_pos hemp]
    exact hinv
  · have hemp' : (jsTrim para).isEmpty = false := by
      cases h : (jsTrim para).isEmpty
      · rfl
      · exact absurd h hemp
    have hne : jsTrim para ≠ [] := by
      intro h
      rw [h] at hemp'
      simp at hemp'
    have hgood : GoodPara (jsTrim para) :=
      ⟨hne, jsTrim_idem para, noBlankB_jsTrim hnb⟩
    have hlok : LineOK s0 (jsTrim para) := by
      intro l hl
      obtain ⟨l1, hl1, he⟩ := lines_jsTrim_corr para l hl
      exact ⟨l1, hlines l1 hl1, he⟩
    by_cases hany : st.seen.any
        (fun kv => kv.1 == normalizeForComparison (jsTrim para)) = true
    · unfold dedupStep
      rw [if_neg (by simp [hemp']), if_pos hany]
      exact hinv
    · have hany' : st.seen.any
          (fun kv => kv.1 == normalizeForComparison (jsTrim para)) = false := by
        cases h : st.seen.any
            (fun kv => kv.1 == normalizeForComparison (jsTrim para))
        · rfl
        · exact absurd h hany
      have hkeys : ∀ kv ∈ st.seen,
          kv.1 ≠ normalizeForComparison (jsTrim para) := by
        intro kv hkv heq
        have h2 := List.any_eq_false.mp hany' kv hkv
        simp [heq] at h2
      cases hfind : st.seen.find?
          (fun kv => simAbove45 (normalizeForComparison (jsTrim para)) kv.1)
          with
      | none =>
        unfold dedupStep
        simp only [hemp', Bool.false_eq_true, if_false, hany', hfind]
        refine ⟨?_, ?_, ?_, ?_, ?_⟩
        · rw [List.map_append]
          rw [List.nodup_append]
          refine ⟨hinv.nodup, by simp, ?_⟩
          intro a ha hb
          obtain ⟨kv, hkv, he⟩ := List.mem_map.mp ha
          have : a = normalizeForComparison (jsTrim para) := by
            simpa using hb
          exact hkeys kv hkv (by rw [he, this])
        · rw [List.map_append]
          exact hinv.perm.append (List.Perm.refl _)
        · intro kv hkv
          rcases List.mem_append.mp hkv with h1 | h1
          · exact hinv.keyfn kv h1
          · have : kv = (normalizeForComparison (jsTrim para), jsTrim para) := by
              simpa using h1
            rw [this]
        · intro q hq
          rcases List.mem_append.mp hq with h1 | h1
          · exact hinv.good q h1
          · have : q = jsTrim para := by simpa using h1
            rw [this]
            exact hgood
        · intro q hq
          rcases List.mem_append.mp hq with h1 | h1
          · exact hinv.lineok q h1
          · have : q = jsTrim para := by simpa using h1
            rw [this]
            exact hlok
      | some kv =>
        have hkv : kv ∈ st.seen := List.mem_of_find?_eq_some hfind
        by_cases hlen : kv.2.length < (jsTrim para).length
        · have hvmem : kv.2 ∈ st.kept :=
            hinv.perm.mem_iff.mpr (List.mem_map.mpr ⟨kv, hkv, rfl⟩)
          have hidx : st.kept.indexOf kv.2 < st.kept.length :=
            indexOf_lt_length_of_mem hvmem
          unfold dedupStep
          simp only [hemp', Bool.false_eq_true, if_false, hany', hfind]
          rw [if_pos hlen, if_pos hidx]
          obtain ⟨A, B, hAB⟩ := List.append_of_mem hkv
          have hkeysplit : st.seen.map Prod.fst =
              A.map Prod.fst ++ kv.1 :: B.map Prod.fst := by
            rw [hAB]
            simp
          have hnod := hinv.nodup
          rw [hkeysplit] at hnod
          have hsplit := List.nodup_append.mp hnod
          have hk1A : kv.1 ∉ A.map Prod.fst := by
            intro hmem
            exact hsplit.2.2 hmem (List.mem_cons_self _ _)
          have hk1B : kv.1 ∉ B.map Prod.fst :=
            (List.nodup_cons.mp hsplit.2.1).1
          have hfilterA : A.filter (fun e => !(e.1 == kv.1)) = A := by
            refine List.filter_eq_self.mpr ?_
            intro e he
            have hne2 : e.1 ≠ kv.1 := by
              intro h2
              exact hk1A (h2 ▸ List.mem_map.mpr ⟨e, he, rfl⟩)
            simpa using hne2
          have hfilterB : B.filter (fun e => !(e.1 == kv.1)) = B := by
            refine List.filter_eq_self.mpr ?_
            intro e he
            have hne2 : e.1 ≠ kv.1 := by
              intro h2
              exact hk1B (h2 ▸ List.mem_map.mpr ⟨e, he, rfl⟩)
            simpa using hne2
          have hfil : st.seen.filter (fun e => !(e.1 == kv.1)) = A ++ B := by
            rw [hAB, List.filter_append, hfilterA, List.filter_cons]
            rw [if_neg (show ¬((!(kv.1 == kv.1)) = true) by simp)]
            rw [hfilterB]
          obtain ⟨C, D, hCD, hset⟩ := set_indexOf_decomp (jsTrim para) hvmem
          have hABkeys : ∀ a ∈ (A ++ B).map Prod.fst,
              a ≠ normalizeForComparison (jsTrim para) := by
            intro a ha
            obtain ⟨e, he, hae⟩ := List.mem_map.mp ha
            have hes : e ∈ st.seen := by
              rw [hAB]
              rcases List.mem_append.mp he with h1 | h1
              · exact List.mem_append_left _ h1
              · exact List.mem_append_right _ (List.mem_cons_of_mem _ h1)
            rw [← hae]
            exact hkeys e hes
          refine ⟨?_, ?_, ?_, ?_, ?_⟩
          · rw [hfil, List.map_append, List.nodup_append]
            refine ⟨?_, by simp, ?_⟩
            · have hsub : List.Sublist ((A ++ B).map Prod.fst)
                  (st.seen.map Prod.fst) := by
                rw [hkeysplit, List.map_append]
                exact ((List.sublist_cons_self kv.1
                  (B.map Prod.fst)).append_left (A.map Prod.fst))
              exact hinv.nodup.sublist hsub
            · intro a ha hb
              have : a = normalizeForComparison (jsTrim para) := by
                simpa using hb
              exact hABkeys a ha this
          · rw [hfil, hset]
            have p1 : (C ++ jsTrim para :: D).Perm
                (jsTrim para :: (C ++ D)) := List.perm_middle
            have hkept : st.kept = C ++ kv.2 :: D := hCD
            have p2 : (C ++ kv.2 :: D).Perm (kv.2 :: (C ++ D)) :=
              List.perm_middle
            have hmsplit : st.seen.map Prod.snd =
                A.map Prod.snd ++ kv.2 :: B.map Prod.snd := by
              rw [hAB]
              simp
            have p3 : (A.map Prod.snd ++ kv.2 :: B.map Prod.snd).Perm
                (kv.2 :: (A.map Prod.snd ++ B.map Prod.snd)) :=
              List.perm_middle
            have hmid : (C ++ kv.2 :: D).Perm (st.seen.map Prod.snd) := by
              rw [← hkept]
              exact hinv.perm
            have hmid2 : (st.seen.map Prod.snd).Perm
                (kv.2 :: (A.map Prod.snd ++ B.map Prod.snd)) := by
              rw [hmsplit]
              exact p3
            have hcd : (C ++ D).Perm
                (A.map Prod.snd ++ B.map Prod.snd) :=
              List.Perm.cons_inv
                (p2.symm.trans (hmid.trans hmid2))
            have hmap2 : (((A ++ B) ++ [(normalizeForComparison
                (jsTrim para), jsTrim para)]).map Prod.snd) =
                (A.map Prod.snd ++ B.map Prod.snd) ++ [jsTrim para] := by
              simp
            rw [hmap2]
            exact p1.trans ((List.Perm.cons _ hcd).trans
              (List.perm_append_singleton _ _).symm)
          · intro e he
            rw [hfil] at he
            rcases List.mem_append.mp he with h1 | h1
            · have hes : e ∈ st.seen := by
                rw [hAB]
                rcases List.mem_append.mp h1 with h2 | h2
                · exact List.mem_append_left _ h2
                · exact List.mem_append_right _ (List.mem_cons_of_mem _ h2)
              exact hinv.keyfn e hes
            · have : e = (normalizeForComparison (jsTrim para),
                  jsTrim para) := by simpa using h1
              rw [this]
          · intro q hq
            rw [hset] at hq
            rcases List.mem_append.mp hq with h1 | h1
            · exact hinv.good q (by rw [hCD]; exact List.mem_append_left _ h1)
            · rcases List.mem_cons.mp h1 with h2 | h2
              · rw [h2]
                exact hgood
              · exact hinv.good q (by
                  rw [hCD]
                  exact List.mem_append_right _ (List.mem_cons_of_mem _ h2))
          · intro q hq
            rw [hset] at hq
            rcases List.mem_append.mp hq with h1 | h1
            · exact hinv.lineok q
                (by rw [hCD]; exact List.mem_append_left _ h1)
            · rcases List.mem_cons.mp h1 with h2 | h2
              · rw [h2]
                exact hlok
              · exact hinv.lineok q (by
                  rw [hCD]
                  exact List.mem_append_right _ (List.mem_cons_of_mem _ h2))
        · unfold dedupStep
          simp only [hemp', Bool.false_eq_true, if_false, hany', hfind]
          rw [if_neg hlen]
          exact hinv

theorem foldl_dedup_inv {s0 : List Char} :
    ∀ (ps : List (List Char)) (st : DState), DInv s0 st →
    (∀ p ∈ ps, noBlankB p = true ∧ ∀ l ∈ splitNl p, l ∈ splitNl s0) →
    DInv s0 (ps.foldl dedupStep st) := by
  intro ps
  induction ps with
  | nil => intro st h _; exact h
  | cons p ps ih =>
    intro st hinv hps
    have hp := hps p (List.mem_cons_self _ _)
    exact ih (dedupStep st p) (dedupStep_inv hinv hp.1 hp.2)
      (fun r hr => hps r (List.mem_cons_of_mem _ hr))

theorem dinv_init (s0 : List Char) : DInv s0 ⟨[], [], false⟩ := by
  refine ⟨by simp, by simp, ?_, ?_, ?_⟩ <;>
    intro x hx <;> exact absurd hx (List.not_mem_nil x)

theorem dedup_state_inv (s0 : List Char) :
    DInv s0 ((blankSplit s0).foldl dedupStep ⟨[], [], false⟩) := by
  refine foldl_dedup_inv (blankSplit s0) _ (dinv_init s0) ?_
  intro p hp
  exact ⟨blankSplit_noBlank p hp, blankSplit_lines p hp⟩


/-! ## Lines surviving stages 1 and 2 -/

theorem markerKeep_jsTrim (l : List Char) :
    markerKeep (jsTrim l) = markerKeep l := by
  simp only [markerKeep, jsTrim_idem]

theorem chordKeep_jsTrim (l : List Char) :
    chordKeep (jsTrim l) = chordKeep l := by
  simp only [chordKeep, jsTrim_idem]

theorem markerKeep_blank {l : List Char} (h : jsTrim l = []) :
    markerKeep l = true := by
  simp only [markerKeep, h]
  rfl

theorem chordKeep_blank {l : List Char} (h : jsTrim l = []) :
    chordKeep l = true := by
  simp only [chordKeep, h]
  rfl

theorem lines_filter_stage (keep : List Char → Bool) (s : List Char) :
    ∀ l ∈ splitNl (joinNl ((splitNl s).filter keep)),
      l = [] ∨ (l ∈ splitNl s ∧ keep l = true) := by
  intro l hl
  cases hF : (splitNl s).filter keep with
  | nil =>
    rw [hF] at hl
    left
    have : l ∈ splitNl (joinNl ([] : List (List Char))) := hl
    simpa [joinNl, List.intercalate, splitNl] using this
  | cons f fs =>
    rw [hF] at hl
    rw [splitNl_joinNl _ (by simp) (by
      intro l' hl'
      have hsub : l' ∈ (splitNl s).filter keep := by
        rw [hF]
        exact hl'
      exact splitNl_no_nl s l' (List.mem_filter.mp hsub).1)] at hl
    right
    have hmem : l ∈ (splitNl s).filter keep := by
      rw [hF]
      exact hl
    exact ⟨(List.mem_filter.mp hmem).1, (List.mem_filter.mp hmem).2⟩

theorem lines_pipeline12 (s : List Char) :
    ∀ l ∈ splitNl (removeChordNotations (removeSectionMarkers s)),
      l = [] ∨ (l ∈ splitNl s ∧ markerKeep l = true ∧ chordKeep l = true) := by
  intro l hl
  rcases lines_filter_stage chordKeep (removeSectionMarkers s) l hl with
    h | ⟨h1, h2⟩
  · exact Or.inl h
  · rcases lines_filter_stage markerKeep s l h1 with h | ⟨h3, h4⟩
    · exact Or.inl h
    · exact Or.inr ⟨h3, h4, h2⟩

/-! ## Blank-line chain structure of the output -/

theorem chain'_nonempty : ∀ (L : List (List Char)),
    (∀ a ∈ L, a ≠ []) →
    List.Chain' (fun a b => ¬(a = [] ∧ b = [])) L := by
  intro L
  induction L with
  | nil => intro _; exact List.chain'_nil
  | cons a bs ih =>
    intro h
    cases bs with
    | nil => exact List.chain'_singleton a
    | cons b rest =>
      rw [List.chain'_cons]
      refine ⟨?_, ih (fun x hx => h x (List.mem_cons_of_mem _ hx))⟩
      intro ⟨ha, _⟩
      exact h a (List.mem_cons_self _ _) ha

theorem joinBlank_lines_mem : ∀ (ps : List (List Char)),
    ∀ l ∈ splitNl (joinBlank ps), l = [] ∨ ∃ q ∈ ps, l ∈ splitNl q := by
  intro ps
  induction ps with
  | nil =>
    intro l hl
    left
    simpa [joinBlank, List.intercalate, splitNl] using hl
  | cons q qs ih =>
    intro l hl
    cases qs with
    | nil =>
      rw [joinBlank_single] at hl
      exact Or.inr ⟨q, List.mem_cons_self _ _, hl⟩
    | cons q2 rest =>
      rw [joinBlank_cons _ _ (by simp),
        show q ++ '\n' :: '\n' :: joinBlank (q2 :: rest) =
          q ++ '\n' :: ('\n' :: joinBlank (q2 :: rest)) from rfl,
        splitNl_append_nl, splitNl_cons_nl] at hl
      rcases List.mem_append.mp hl with h1 | h1
      · exact Or.inr ⟨q, List.mem_cons_self _ _, h1⟩
      · rcases List.mem_cons.mp h1 with h2 | h2
        · exact Or.inl h2
        · rcases ih l h2 with h3 | ⟨q', hq', hlq⟩
          · exact Or.inl h3
          · exact Or.inr ⟨q', List.mem_cons_of_mem _ hq', hlq⟩

theorem splitNl_head_ne_nil {u : List Char} {c : Char}
    (hc : u.head? = some c) (hnl : ¬c = '\n') :
    ∃ h0 t0, splitNl u = h0 :: t0 ∧ h0 ≠ [] := by
  cases u with
  | nil => simp at hc
  | cons d ds =>
    have hd : d = c := by simpa using hc
    subst hd
    obtain ⟨h0, t0, hsp⟩ := exists_cons_splitNl ds
    exact ⟨d :: h0, t0, splitNl_cons_of_ne hnl hsp, by simp⟩

theorem joinBlank_lines_chain : ∀ (ps : List (List Char)), ps ≠ [] →
    (∀ q ∈ ps, GoodPara q) →
    (∀ q ∈ ps, ∀ l ∈ splitNl q, l ≠ []) →
    List.Chain' (fun a b => ¬(a = [] ∧ b = []))
      (splitNl (joinBlank ps)) := by
  intro ps
  induction ps with
  | nil => intro h _ _; exact absurd rfl h
  | cons q qs ih =>
    intro _ hg hlines
    cases qs with
    | nil =>
      rw [joinBlank_single]
      exact chain'_nonempty _ (hlines q (List.mem_cons_self _ _))
    | cons q2 rest =>
      rw [joinBlank_cons _ _ (by simp),
        show q ++ '\n' :: '\n' :: joinBlank (q2 :: rest) =
          q ++ '\n' :: ('\n' :: joinBlank (q2 :: rest)) from rfl,
        splitNl_append_nl, splitNl_cons_nl]
      have hgs : ∀ r ∈ q2 :: rest, GoodPara r :=
        fun r hr => hg r (List.mem_cons_of_mem _ hr)
      have hls : ∀ r ∈ q2 :: rest, ∀ l ∈ splitNl r, l ≠ [] :=
        fun r hr => hlines r (List.mem_cons_of_mem _ hr)
      have hq2 := hgs q2 (List.mem_cons_self _ _)
      obtain ⟨c, hc⟩ := exists_head_of_ne_nil hq2.1
      have hcw : isWS c = false := good_head_nw hq2 c hc
      have hcnl : ¬c = '\n' := by
        intro h2
        rw [h2] at hcw
        exact absurd hcw (by decide)
      have hJh : (joinBlank (q2 :: rest)).head? = some c := by
        rw [joinBlank_head? rfl hq2.1]
        exact hc
      obtain ⟨h0, t0, hsp, hh0⟩ := splitNl_head_ne_nil hJh hcnl
      refine List.Chain'.append ?_ ?_ ?_
      · exact chain'_nonempty _ (hlines q (List.mem_cons_self _ _))
      · rw [hsp]
        refine (List.chain'_cons).mpr ⟨?_, ?_⟩
        · rintro ⟨-, hcon⟩
          exact hh0 hcon
        · rw [← hsp]
          exact ih (by simp) hgs hls
      · intro x hx y hy
        rintro ⟨hx0, -⟩
        have hxm : x ∈ splitNl q := List.mem_of_mem_getLast? hx
        exact hlines q (List.mem_cons_self _ _) x hxm hx0


theorem jsTrim_joinBlank_good {ps : List (List Char)} (hne : ps ≠ [])
    (hg : ∀ q ∈ ps, GoodPara q) :
    jsTrim (joinBlank ps) = joinBlank ps := by
  obtain ⟨q1, qs, hq1⟩ : ∃ q1 qs, ps = q1 :: qs := by
    cases ps with
    | nil => exact absurd rfl hne
    | cons a b => exact ⟨a, b, rfl⟩
  refine jsTrim_eq_self_of ?_ ?_
  · intro c hc
    have hg1 : GoodPara q1 := hg q1 (by rw [hq1]; exact List.mem_cons_self _ _)
    rw [joinBlank_head? hq1 hg1.1] at hc
    exact good_head_nw hg1 c hc
  · intro c hc
    obtain ⟨w, hw⟩ : ∃ w, ps.getLast? = some w := by
      refine exists_last_of_ne_nil hne
    have hwm : w ∈ ps := List.mem_of_mem_getLast? hw
    rw [joinBlank_getLast? _ w (fun p hp => (hg p hp).1) hw] at hc
    exact good_last_nw (hg w hwm) c hc

/-! ## The no-replacement invariant -/

/-- When no in-place replacement has happened, `kept` is exactly the value
list of `seen` in order, and every later key is dissimilar (`≤ 0.8`) to
every earlier key. -/
def RInv (st : DState) : Prop :=
  st.rep = false →
    st.kept = st.seen.map Prod.snd ∧
    List.Pairwise (fun a b => simAbove45 b.1 a.1 = false) st.seen

theorem dedupStep_rinv {st : DState} {para : List Char} (hr : RInv st) :
    RInv (dedupStep st para) := by
  by_cases hemp : (jsTrim para).isEmpty = true
  · unfold dedupStep
    rw [if_pos hemp]
    exact hr
  · have hemp' : (jsTrim para).isEmpty = false := by
      cases h : (jsTrim para).isEmpty
      · rfl
      · exact absurd h hemp
    by_cases hany : st.seen.any
        (fun kv => kv.1 == normalizeForComparison (jsTrim para)) = true
    · unfold dedupStep
      rw [if_neg (by simp [hemp']), if_pos hany]
      exact hr
    · have hany' : st.seen.any
          (fun kv => kv.1 == normalizeForComparison (jsTrim para)) =
            false := by
        cases h : st.seen.any
            (fun kv => kv.1 == normalizeForComparison (jsTrim para))
        · rfl
        · exact absurd h hany
      cases hfind : st.seen.find?
          (fun kv => simAbove45 (normalizeForComparison (jsTrim para))
            kv.1) with
      | none =>
        unfold dedupStep
        simp only [hemp', Bool.false_eq_true, if_false, hany', hfind]
        intro hrep
        obtain ⟨hkeq, hpw⟩ := hr hrep
        constructor
        · rw [List.map_append, hkeq]
          rfl
        · rw [List.pairwise_append]
          refine ⟨hpw, by simp, ?_⟩
          intro a ha b hb
          have hbe : b = (normalizeForComparison (jsTrim para),
              jsTrim para) := by simpa using hb
          have h2 := List.find?_eq_none.mp hfind a ha
          rw [hbe]
          show simAbove45 (normalizeForComparison (jsTrim para)) a.1 = false
          cases h3 : simAbove45 (normalizeForComparison (jsTrim para)) a.1
          · rfl
          · exact absurd h3 h2
      | some kv =>
        by_cases hlen : kv.2.length < (jsTrim para).length
        · by_cases hidx : st.kept.indexOf kv.2 < st.kept.length
          · unfold dedupStep
            simp only [hemp', Bool.false_eq_true, if_false, hany', hfind]
            rw [if_pos hlen, if_pos hidx]
            intro hrep
            simp at hrep
          · unfold dedupStep
            simp only [hemp', Bool.false_eq_true, if_false, hany', hfind]
            rw [if_pos hlen, if_neg hidx]
            exact hr
        · unfold dedupStep
          simp only [hemp', Bool.false_eq_true, if_false, hany', hfind]
          rw [if_neg hlen]
          exact hr

theorem foldl_dedup_rinv :
    ∀ (ps : List (List Char)) (st : DState), RInv st →
      RInv (ps.foldl dedupStep st) := by
  intro ps
  induction ps with
  | nil => intro st h; exact h
  | cons p ps ih =>
    intro st h
    exact ih (dedupStep st p) (dedupStep_rinv h)

theorem dedup_state_rinv (s0 : List Char) :
    RInv ((blankSplit s0).foldl dedupStep ⟨[], [], false⟩) := by
  refine foldl_dedup_rinv (blankSplit s0) _ ?_
  intro _
  exact ⟨rfl, List.Pairwise.nil⟩

/-- The master description of a `cleanLyrics` run: the output is empty, or
it is the blank-line join of the per-line-trimmed kept paragraphs of the
deduplication pass, which are good, key-distinct, and made of trimmed
lines of the chord-stage output. -/
theorem cleanLyrics_master (s : List Char) :
    cleanLyrics s = [] ∨
    ∃ kept : List (List Char), kept ≠ [] ∧
      cleanLyrics s = joinBlank (kept.map lineTrim) ∧
      (∀ q ∈ kept, GoodPara q) ∧
      (∀ q ∈ kept,
        LineOK (removeChordNotations (removeSectionMarkers s)) q) ∧
      (kept.map normalizeForComparison).Nodup ∧
      (dedupNoReplace (removeChordNotations (removeSectionMarkers s)) =
          true →
        List.Pairwise (fun a b =>
          normalizeForComparison a ≠ normalizeForComparison b ∧
          simAbove45 (normalizeForComparison b)
            (normalizeForComparison a) = false) kept) := by
  by_cases hguard : (jsTrim s).isEmpty = true
  · left
    unfold cleanLyrics
    rw [if_pos hguard]
  · have hinv := dedup_state_inv (removeChordNotations
      (removeSectionMarkers s))
    cases hk : ((blankSplit (removeChordNotations
        (removeSectionMarkers s))).foldl dedupStep ⟨[], [], false⟩).kept with
    | nil =>
      left
      unfold cleanLyrics
      rw [if_neg hguard]
      show normalizeWhitespace (deduplicateSections _) = []
      unfold deduplicateSections
      rw [hk]
      rfl
    | cons k1 krest =>
      right
      refine ⟨k1 :: krest, by simp, ?_, ?_, ?_, ?_, ?_⟩
      · unfold cleanLyrics
        rw [if_neg hguard]
        show normalizeWhitespace (deduplicateSections _) = _
        unfold deduplicateSections
        rw [hk]
        exact normalizeWhitespace_joinBlank (by simp)
          (by rw [← hk]; exact hinv.good)
      · rw [← hk]
        exact hinv.good
      · rw [← hk]
        exact hinv.lineok
      · rw [← hk]
        have h1 : (((blankSplit (removeChordNotations
            (removeSectionMarkers s))).foldl dedupStep
            ⟨[], [], false⟩).kept.map normalizeForComparison).Perm
            ((((blankSplit (removeChordNotations
            (removeSectionMarkers s))).foldl dedupStep
            ⟨[], [], false⟩).seen.map Prod.snd).map
              normalizeForComparison) :=
          hinv.perm.map normalizeForComparison
        have h2 : ((((blankSplit (removeChordNotations
            (removeSectionMarkers s))).foldl dedupStep
            ⟨[], [], false⟩).seen.map Prod.snd).map
              normalizeForComparison) =
            (((blankSplit (removeChordNotations
            (removeSectionMarkers s))).foldl dedupStep
            ⟨[], [], false⟩).seen.map Prod.fst) := by
          rw [List.map_map]
          refine List.map_congr_left ?_
          intro kv hkv
          exact (hinv.keyfn kv hkv).symm
        refine (h1.nodup_iff).mpr ?_
        rw [h2]
        exact hinv.nodup
      · intro hnr
        have hrep : ((blankSplit (removeChordNotations
            (removeSectionMarkers s))).foldl dedupStep
            ⟨[], [], false⟩).rep = false := by
          unfold dedupNoReplace at hnr
          rw [Bool.not_eq_true'] at hnr
          exact hnr
        obtain ⟨hkeq, hpw⟩ := dedup_state_rinv (removeChordNotations
          (removeSectionMarkers s)) hrep
        have hkeys : List.Pairwise
            (fun a b : List Char × List Char => a.1 ≠ b.1)
            ((blankSplit (removeChordNotations
              (removeSectionMarkers s))).foldl dedupStep
              ⟨[], [], false⟩).seen :=
          List.pairwise_map.mp hinv.nodup
        have hcomb := hkeys.and hpw
        rw [← hk, hkeq]
        rw [List.pairwise_map]
        refine hcomb.imp_of_mem ?_
        intro a b ha hb hab
        rw [← hinv.keyfn a ha, ← hinv.keyfn b hb]
        exact ⟨hab.1, hab.2⟩


/-! ## Claim C7 -/

/-- Claim C7: for every input, the output of `cleanLyrics` has no two
consecutive blank lines (adjacent lines are never both empty), every
output line carries no leading or trailing whitespace (each line is fixed
by `trim`), and the whole result has no leading or trailing whitespace. -/
theorem cleanLyrics_whitespace_normal (s : List Char) :
    (∀ l ∈ splitNl (cleanLyrics s), jsTrim l = l) ∧
    List.Chain' (fun a b => ¬(a = [] ∧ b = []))
      (splitNl (cleanLyrics s)) ∧
    jsTrim (cleanLyrics s) = cleanLyrics s := by
  rcases cleanLyrics_master s with h | ⟨kept, hne, hout, hgood, hlok, hnod, hsim⟩
  · rw [h]
    refine ⟨?_, ?_, rfl⟩
    · intro l hl
      have h2 : l = [] := by
        have h3 : l ∈ [([] : List Char)] := hl
        simpa using h3
      rw [h2]
      rfl
    · exact List.chain'_singleton _
  · rw [hout]
    have hmapne : kept.map lineTrim ≠ [] := by
      intro h2
      exact hne (List.map_eq_nil_iff.mp h2)
    have hgoods : ∀ r ∈ kept.map lineTrim, GoodPara r := by
      intro r hr
      obtain ⟨q, hq, he⟩ := List.mem_map.mp hr
      subst he
      exact lineTrim_good (hgood q hq)
    have hlinesne : ∀ r ∈ kept.map lineTrim, ∀ l ∈ splitNl r, l ≠ [] := by
      intro r hr l hl
      obtain ⟨q, hq, he⟩ := List.mem_map.mp hr
      subst he
      rw [splitNl_lineTrim] at hl
      obtain ⟨l0, hl0, he2⟩ := List.mem_map.mp hl
      rw [← he2]
      exact lines_nonblank (hgood q hq).1 (hgood q hq).2.1
        (hgood q hq).2.2 l0 hl0
    refine ⟨?_, ?_, ?_⟩
    · intro l hl
      rcases joinBlank_lines_mem _ l hl with h1 | ⟨r, hr, hlr⟩
      · rw [h1]
        rfl
      · obtain ⟨q, hq, he⟩ := List.mem_map.mp hr
        subst he
        rw [splitNl_lineTrim] at hlr
        obtain ⟨l0, hl0, he2⟩ := List.mem_map.mp hlr
        rw [← he2]
        exact jsTrim_idem l0
    · exact joinBlank_lines_chain _ hmapne hgoods hlinesne
    · exact jsTrim_joinBlank_good hmapne hgoods

/-! ## Claim C8 -/

/-- Claim C8: no stage alters word content within a surviving line — every
non-blank line of the output is exactly the whitespace-trimmed form of
some line of the input. -/
theorem cleanLyrics_lines_from_input (s : List Char) :
    ∀ l ∈ splitNl (cleanLyrics s), l ≠ [] →
      ∃ l0 ∈ splitNl s, l = jsTrim l0 := by
  intro l hl hlne
  rcases cleanLyrics_master s with h | ⟨kept, hne, hout, hgood, hlok, hnod, hsim⟩
  · rw [h] at hl
    have h2 : l = [] := by
      have h3 : l ∈ [([] : List Char)] := hl
      simpa using h3
    exact absurd h2 hlne
  · rw [hout] at hl
    rcases joinBlank_lines_mem _ l hl with h1 | ⟨r, hr, hlr⟩
    · exact absurd h1 hlne
    · obtain ⟨q, hq, he⟩ := List.mem_map.mp hr
      subst he
      rw [splitNl_lineTrim] at hlr
      obtain ⟨l1, hl1, he2⟩ := List.mem_map.mp hlr
      obtain ⟨l2, hl2, he3⟩ := hlok q hq l1 hl1
      rcases lines_pipeline12 s l2 hl2 with h4 | ⟨h5, -, -⟩
      · exfalso
        rw [h4] at he3
        refine hlne ?_
        rw [← he2, he3]
        rfl
      · refine ⟨l2, h5, ?_⟩
        rw [← he2]
        exact he3

/-- Witness for C8 at the concrete input `"Hello\nWorld"`: the output line
`"Hello"` is the trim of the input line `"Hello"`. -/
theorem cleanLyrics_lines_from_input_witness :
    ("Hello".toList ∈ splitNl (cleanLyrics "Hello\nWorld".toList)) ∧
    ("Hello".toList ≠ []) ∧
    (∃ l0 ∈ splitNl "Hello\nWorld".toList, "Hello".toList = jsTrim l0) :=
  ⟨by decide, by decide,
    cleanLyrics_lines_from_input "Hello\nWorld".toList "Hello".toList
      (by decide) (by decide)⟩

/-! ## Claim C10 -/

/-- Claim C10: no two paragraphs of the output are equal after
normalization (lowercasing, whitespace collapse, trim) — output
paragraphs are pairwise distinct up to case and whitespace. -/
theorem cleanLyrics_paragraphs_key_distinct (s : List Char) :
    List.Pairwise (fun a b =>
      normalizeForComparison a ≠ normalizeForComparison b)
      (blankSplit (cleanLyrics s)) := by
  rcases cleanLyrics_master s with h | ⟨kept, hne, hout, hgood, hlok, hnod, hsim⟩
  · rw [h]
    exact List.pairwise_singleton _ _
  · rw [hout]
    have hmapne : kept.map lineTrim ≠ [] := by
      intro h2
      exact hne (List.map_eq_nil_iff.mp h2)
    have hgoods : ∀ r ∈ kept.map lineTrim, GoodPara r := by
      intro r hr
      obtain ⟨q, hq, he⟩ := List.mem_map.mp hr
      subst he
      exact lineTrim_good (hgood q hq)
    rw [blankSplit_joinBlank _ hmapne hgoods]
    rw [List.pairwise_map]
    have hpair : List.Pairwise (fun a b =>
        normalizeForComparison a ≠ normalizeForComparison b) kept :=
      List.pairwise_map.mp hnod
    refine hpair.imp ?_
    intro a b hab
    rw [lineTrim_key, lineTrim_key]
    exact hab


/-! ## Second-pass stability -/

theorem filter_stage_id {keep : List Char → Bool} {u : List Char}
    (h : ∀ l ∈ splitNl u, keep l = true) :
    joinNl ((splitNl u).filter keep) = u := by
  rw [List.filter_eq_self.mpr h, joinNl_splitNl]

theorem lineTrim_idem (q : List Char) : lineTrim (lineTrim q) = lineTrim q := by
  show joinNl ((splitNl (lineTrim q)).map jsTrim) = _
  rw [splitNl_lineTrim, List.map_map]
  show joinNl ((splitNl q).map (jsTrim ∘ jsTrim)) = _
  congr 1
  refine List.map_congr_left ?_
  intro l _
  exact jsTrim_idem l

theorem out_lines_keep {s : List Char} {kept : List (List Char)}
    (hlok : ∀ q ∈ kept,
      LineOK (removeChordNotations (removeSectionMarkers s)) q) :
    ∀ l ∈ splitNl (joinBlank (kept.map lineTrim)),
      markerKeep l = true ∧ chordKeep l = true := by
  intro l hl
  rcases joinBlank_lines_mem _ l hl with h1 | ⟨r, hr, hlr⟩
  · subst h1
    exact ⟨markerKeep_blank rfl, chordKeep_blank rfl⟩
  · obtain ⟨q, hq, he⟩ := List.mem_map.mp hr
    subst he
    rw [splitNl_lineTrim] at hlr
    obtain ⟨l1, hl1, he2⟩ := List.mem_map.mp hlr
    obtain ⟨l2, hl2, he3⟩ := hlok q hq l1 hl1
    subst he2
    rcases lines_pipeline12 s l2 hl2 with h4 | ⟨-, h5, h6⟩
    · rw [h4] at he3
      rw [he3]
      exact ⟨markerKeep_blank rfl, chordKeep_blank rfl⟩
    · constructor
      · rw [he3, markerKeep_jsTrim l2]
        exact h5
      · rw [he3, chordKeep_jsTrim l2]
        exact h6

theorem foldl_append_all :
    ∀ (qs : List (List Char)) (st : DState),
      (∀ q ∈ qs, jsTrim q = q ∧ q ≠ []) →
      (∀ q ∈ qs, ∀ kv ∈ st.seen,
        kv.1 ≠ normalizeForComparison q ∧
        simAbove45 (normalizeForComparison q) kv.1 = false) →
      List.Pairwise (fun a b =>
        normalizeForComparison a ≠ normalizeForComparison b ∧
        simAbove45 (normalizeForComparison b)
          (normalizeForComparison a) = false) qs →
      (qs.foldl dedupStep st).kept = st.kept ++ qs := by
  intro qs
  induction qs with
  | nil =>
    intro st _ _ _
    simp
  | cons q qs ih =>
    intro st hfix hsep hpw
    have hq := hfix q (List.mem_cons_self _ _)
    have hemp : (jsTrim q).isEmpty = false := by
      rw [hq.1]
      cases h : q.isEmpty
      · rfl
      · exact absurd (List.isEmpty_iff.mp h) hq.2
    have hany : st.seen.any
        (fun kv => kv.1 == normalizeForComparison (jsTrim q)) = false := by
      rw [List.any_eq_false]
      intro kv hkv
      have h2 := (hsep q (List.mem_cons_self _ _) kv hkv).1
      rw [hq.1]
      simpa using h2
    have hfind : st.seen.find?
        (fun kv => simAbove45 (normalizeForComparison (jsTrim q)) kv.1) =
          none := by
      rw [List.find?_eq_none]
      intro kv hkv
      have h2 := (hsep q (List.mem_cons_self _ _) kv hkv).2
      rw [hq.1]
      simp [h2]
    have hstep : dedupStep st q =
        ⟨st.seen ++ [(normalizeForComparison (jsTrim q), jsTrim q)],
          st.kept ++ [jsTrim q], st.rep⟩ := by
      unfold dedupStep
      simp only [hemp, Bool.false_eq_true, if_false, hany, hfind]
    show ((q :: qs).foldl dedupStep st).kept = _
    rw [List.foldl_cons, hstep]
    rw [ih _ ?_ ?_ ((List.pairwise_cons.mp hpw).2)]
    · rw [hq.1]
      simp
    · intro r hr
      exact hfix r (List.mem_cons_of_mem _ hr)
    · intro r hr kv hkv
      rcases List.mem_append.mp hkv with h1 | h1
      · exact hsep r (List.mem_cons_of_mem _ hr) kv h1
      · have hkve : kv = (normalizeForComparison (jsTrim q), jsTrim q) := by
          simpa using h1
        have hrel := (List.pairwise_cons.mp hpw).1 r hr
        rw [hkve, hq.1]
        exact ⟨hrel.1, hrel.2⟩

/-! ## Claim C1 (amended): idempotence without replacement -/

/-- Claim C1 (amended): whenever the deduplication pass performs no
in-place replacement, `cleanLyrics` is idempotent.  (The unconditional
idempotence of the claim is refuted by `cleanLyrics_not_idempotent`.) -/
theorem cleanLyrics_idem_of_noReplace (s : List Char)
    (h : dedupNoReplace (removeChordNotations (removeSectionMarkers s)) =
      true) :
    cleanLyrics (cleanLyrics s) = cleanLyrics s := by
  rcases cleanLyrics_master s with hout | ⟨kept, hne, hout, hgood, hlok,
    hnod, hsim⟩
  · rw [hout]
    rfl
  · rw [hout]
    have hmapne : kept.map lineTrim ≠ [] := by
      intro h2
      exact hne (List.map_eq_nil_iff.mp h2)
    have hgoods : ∀ r ∈ kept.map lineTrim, GoodPara r := by
      intro r hr
      obtain ⟨q, hq, he⟩ := List.mem_map.mp hr
      subst he
      exact lineTrim_good (hgood q hq)
    have htrim : jsTrim (joinBlank (kept.map lineTrim)) =
        joinBlank (kept.map lineTrim) := jsTrim_joinBlank_good hmapne hgoods
    have houtne : joinBlank (kept.map lineTrim) ≠ [] :=
      joinBlank_ne_nil hmapne hgoods
    have hkeeps := out_lines_keep hlok
    unfold cleanLyrics
    rw [if_neg (show ¬((jsTrim (joinBlank (kept.map lineTrim))).isEmpty =
        true) by
      rw [htrim]
      intro h2
      exact houtne (List.isEmpty_iff.mp h2))]
    have h1 : removeSectionMarkers (joinBlank (kept.map lineTrim)) =
        joinBlank (kept.map lineTrim) := by
      show joinNl ((splitNl _).filter markerKeep) = _
      exact filter_stage_id (fun l hl => (hkeeps l hl).1)
    rw [h1]
    have h2 : removeChordNotations (joinBlank (kept.map lineTrim)) =
        joinBlank (kept.map lineTrim) := by
      show joinNl ((splitNl _).filter chordKeep) = _
      exact filter_stage_id (fun l hl => (hkeeps l hl).2)
    rw [h2]
    have hpw : List.Pairwise (fun a b =>
        normalizeForComparison a ≠ normalizeForComparison b ∧
        simAbove45 (normalizeForComparison b)
          (normalizeForComparison a) = false) (kept.map lineTrim) := by
      rw [List.pairwise_map]
      refine (hsim h).imp ?_
      intro a b hab
      rw [lineTrim_key, lineTrim_key]
      exact hab
    have h3 : deduplicateSections (joinBlank (kept.map lineTrim)) =
        joinBlank (kept.map lineTrim) := by
      show joinBlank ((blankSplit _).foldl dedupStep ⟨[], [], false⟩).kept
        = _
      rw [blankSplit_joinBlank _ hmapne hgoods]
      rw [foldl_append_all (kept.map lineTrim) ⟨[], [], false⟩
        (fun r hr => ⟨(hgoods r hr).2.1, (hgoods r hr).1⟩)
        (fun r _ kv hkv => absurd hkv (List.not_mem_nil kv)) hpw]
      rw [List.nil_append]
    rw [h3]
    rw [normalizeWhitespace_joinBlank hmapne hgoods]
    congr 1
    rw [List.map_map]
    refine List.map_congr_left ?_
    intro q _
    exact lineTrim_idem q

/-- Witness for the amended C1 at the concrete input `"Hello\nWorld"`,
whose deduplication pass performs no replacement. -/
theorem cleanLyrics_idem_of_noReplace_witness :
    dedupNoReplace (removeChordNotations
      (removeSectionMarkers "Hello\nWorld".toList)) = true ∧
    cleanLyrics (cleanLyrics "Hello\nWorld".toList) =
      cleanLyrics "Hello\nWorld".toList :=
  ⟨by decide, cleanLyrics_idem_of_noReplace "Hello\nWorld".toList
    (by decide)⟩

end CleanLyrics
